import Mathlib

/-!
test2otlp: the event-to-span state machine of `main.go`

A shallow embedding of `Main` (src/main.go).  Times are nanoseconds relative to
Go's zero `time.Time` (January 1, year 1, UTC), so `time.Time{}` is `0`.  The
tracing collaborator is modelled by the log of calls made on it; span handles
are the sequence numbers of the `tracer.Start` calls.
-/

namespace Test2Otlp

/-! ## float64 arithmetic used by the duration conversion -/

/-- Finite IEEE-754 binary64 value `(-1)^neg * mant * 2^exp`. -/
structure Float64 where
  neg : Bool
  mant : Nat
  exp : Int
deriving DecidableEq, Repr

/-- Number of binary digits of `n`, counted with `fuel` halvings at most. -/
def bits : Nat → Nat → Nat
  | 0, _ => 0
  | fuel + 1, n => if n = 0 then 0 else bits fuel (n / 2) + 1

/-- The position of the leading binary digit of `n` (floor of the binary logarithm). -/
def ilog2 (n : Nat) : Nat := bits n n - 1

/-- Nearest binary64 to the non-negative rational `num / den` (`den > 0`), ties to
even, with gradual underflow; `none` when the result overflows to infinity. -/
def roundToFloat64 (neg : Bool) (num den : Nat) : Option Float64 :=
  if num = 0 then some ⟨neg, 0, 0⟩
  else
    let b : Int := (ilog2 num : Int) - (ilog2 den : Int)
    -- floor (log2 (num / den)) is b when den * 2^b ≤ num, and b - 1 otherwise
    let ge : Bool := if 0 ≤ b then decide (den * 2 ^ b.toNat ≤ num)
                     else decide (den ≤ num * 2 ^ (-b).toNat)
    let l : Int := if ge then b else b - 1
    let e : Int := max (l - 52) (-1074)
    let n : Nat := if e ≤ 0 then num * 2 ^ (-e).toNat else num
    let d : Nat := if e ≤ 0 then den else den * 2 ^ e.toNat
    let q : Nat := n / d
    let r : Nat := n % d
    let m : Nat := if d < 2 * r ∨ (2 * r = d ∧ q % 2 = 1) then q + 1 else q
    if 971 < e ∨ (e = 971 ∧ m = 2 ^ 53) then none else some ⟨neg, m, e⟩

/-- The float64 product `a * b`, correctly rounded; `none` is an infinity. -/
def Float64.mul (a b : Float64) : Option Float64 :=
  let m := a.mant * b.mant
  let e := a.exp + b.exp
  let s := a.neg != b.neg
  if 0 ≤ e then roundToFloat64 s (m * 2 ^ e.toNat) 1
  else roundToFloat64 s m (2 ^ (-e).toNat)

/-- The float64 value of `float64(time.Second)`, that is 1e9. -/
def secondF : Float64 := ⟨false, 1000000000, 0⟩

/-- Truncation toward zero of a finite float64. -/
def Float64.trunc (x : Float64) : Int :=
  let a : Nat := if 0 ≤ x.exp then x.mant * 2 ^ x.exp.toNat else x.mant / 2 ^ (-x.exp).toNat
  if x.neg then -(a : Int) else (a : Int)

/-- What the code takes from its platform: the two runtime constants and the
result of a float64 to int64 conversion whose value does not fit (Go leaves
it to the implementation); the argument is the sign of the value. -/
structure Platform where
  GOARCH : String
  GOOS : String
  convOverflow : Bool → Int

/-- The conversion `int64(x)` of a float64 product (`none` is an infinity). -/
def toInt64 (p : Platform) (neg : Bool) : Option Float64 → Int
  | none => p.convOverflow neg
  | some x =>
    let t := x.trunc
    if -(2 : Int) ^ 63 ≤ t ∧ t < (2 : Int) ^ 63 then t else p.convOverflow x.neg

/-- Line 105: `time.Duration(event.Elapsed * float64(time.Second))`. -/
def toDuration (p : Platform) (elapsed : Float64) : Int :=
  toInt64 p elapsed.neg (elapsed.mul secondF)

/-- The float64 that decoding the JSON number `(-1)^neg * m * 10^e10` stores
(`strconv.ParseFloat`: nearest value, ties to even; `none` is out of range,
which the decoder reports as an error). -/
def parseFloat (neg : Bool) (m : Nat) (e10 : Int) : Option Float64 :=
  if 0 ≤ e10 then roundToFloat64 neg (m * 10 ^ e10.toNat) 1
  else roundToFloat64 neg m (10 ^ (-e10).toNat)

/-! ## Data model -/

/-- The struct `TestEvent` of lines 19-26. -/
structure TestEvent where
  Time : Int
  Action : String
  Package : String
  Test : String
  Elapsed : Float64
  Output : String
deriving DecidableEq, Repr

/-- Status codes of the tracing collaborator (`codes.Ok`, `codes.Error`). -/
inductive Code where
  | Ok
  | Error
deriving DecidableEq, Repr

/-- One call on the tracing collaborator.  `Start span parent ..` is a
`tracer.Start` that returned the handle `span`, with `parent` the span carried
by the context passed in; `End span none` is `span.End()` without a timestamp
option. -/
inductive Call where
  | Start (span : Nat) (parent : Option Nat) (name : String) (ts : Int)
      (attrs : List (String × String))
  | SetStatus (span : Nat) (code : Code)
  | AddEvent (span : Nat) (name : String) (ts : Int)
  | End (span : Nat) (ts : Option Int)
  | Shutdown
deriving DecidableEq, Repr

/-- The local struct `spanDetails` of lines 46-49. -/
structure spanDetails where
  Span : Nat
  start : Int
deriving DecidableEq, Repr

/-- A deferred function of `Main`. -/
inductive Deferred where
  | shutdown
  | endOuter
deriving DecidableEq, Repr

/-- The variables of `Main` together with the collaborator's call log. -/
structure State where
  ctx : Option Nat
  spans : List (String × spanDetails)
  outerSpan : Option Nat
  lastEndTime : Int
  defers : List Deferred
  nextSpan : Nat
  calls : List Call
deriving DecidableEq, Repr

/-- The map read `spans[k]`; `none` is the nil pointer of an absent key. -/
def lookup : List (String × spanDetails) → String → Option spanDetails
  | [], _ => none
  | (k', v) :: rest, k => if k' = k then some v else lookup rest k

/-- The map operation `delete(spans, k)`. -/
def delete : List (String × spanDetails) → String → List (String × spanDetails)
  | [], _ => []
  | (k', v) :: rest, k => if k' = k then delete rest k else (k', v) :: delete rest k

/-- The map write `spans[k] = v`. -/
def insert (spans : List (String × spanDetails)) (k : String) (v : spanDetails) :
    List (String × spanDetails) :=
  (k, v) :: delete spans k

/-- State on entry to the loop (line 56): only `provider.Shutdown` is deferred. -/
def init : State :=
  { ctx := none, spans := [], outerSpan := none, lastEndTime := 0,
    defers := [Deferred.shutdown], nextSpan := 0, calls := [] }

/-- Result of one loop iteration on a decoded event. -/
inductive StepResult where
  | next (s : State)
  | panicked (s : State)
deriving DecidableEq, Repr

/-- The state in which an iteration leaves `Main`, whether it went on or panicked. -/
def StepResult.state : StepResult → State
  | StepResult.next s => s
  | StepResult.panicked s => s

/-- Attributes of a child span (lines 81-86). -/
def childAttrs (p : Platform) (event : TestEvent) : List (String × String) :=
  [("code.namespace", event.Package), ("code.function", event.Test),
   ("host.arch", p.GOARCH), ("os.name", p.GOOS)]

/-- Lines 71-78: the outer span is started when `outerSpan == nil`. -/
def ensureOuter (s : State) (event : TestEvent) : State :=
  match s.outerSpan with
  | some _ => s
  | none =>
    { s with
      ctx := some s.nextSpan
      outerSpan := some s.nextSpan
      defers := Deferred.endOuter :: s.defers
      nextSpan := s.nextSpan + 1
      calls := s.calls ++ [Call.Start s.nextSpan s.ctx "test2json" event.Time [],
                           Call.SetStatus s.nextSpan Code.Ok] }

/-- Lines 70-93, the `run` branch. -/
def stepRun (p : Platform) (s : State) (event : TestEvent) : State :=
  let s1 := ensureOuter s event
  { s1 with
    nextSpan := s1.nextSpan + 1
    calls := s1.calls ++ [Call.Start s1.nextSpan s1.ctx event.Test event.Time (childAttrs p event)]
    spans := insert s1.spans event.Test ⟨s1.nextSpan, event.Time⟩ }

/-- Lines 104-116, the `pass`/`fail` case, for a record that is present. -/
def stepPassFail (p : Platform) (s : State) (event : TestEvent) (span : spanDetails) :
    StepResult :=
  let duration := toDuration p event.Elapsed
  let endTime := span.start + duration
  let s1 := if s.lastEndTime < endTime then { s with lastEndTime := endTime } else s
  if event.Action = "pass" then
    StepResult.next { s1 with
      calls := s1.calls ++ [Call.SetStatus span.Span Code.Ok, Call.End span.Span (some endTime)] }
  else
    match s1.outerSpan with
    | none =>
      StepResult.panicked { s1 with calls := s1.calls ++ [Call.SetStatus span.Span Code.Error] }
    | some outer =>
      StepResult.next { s1 with
        calls := s1.calls ++ [Call.SetStatus span.Span Code.Error,
                              Call.SetStatus outer Code.Error,
                              Call.End span.Span (some endTime)] }

/-- Lines 64-117: the body of the loop for a decoded event.  A nil `span`
that is dereferenced panics. -/
def step (p : Platform) (s : State) (event : TestEvent) : StepResult :=
  if event.Test = "" then StepResult.next s
  else if event.Action = "run" then StepResult.next (stepRun p s event)
  else
    let span := lookup s.spans event.Test
    if event.Action = "skip" then
      match span with
      | none => StepResult.panicked s
      | some d =>
        StepResult.next { s with
          calls := s.calls ++ [Call.End d.Span none]
          spans := delete s.spans event.Test }
    else if event.Action = "pause" ∨ event.Action = "cont" then
      match span with
      | none => StepResult.panicked s
      | some d =>
        StepResult.next { s with calls := s.calls ++ [Call.AddEvent d.Span event.Action event.Time] }
    else if event.Action = "output" then
      match span with
      | none => StepResult.panicked s
      | some d =>
        StepResult.next { s with calls := s.calls ++ [Call.AddEvent d.Span event.Output event.Time] }
    else if event.Action = "pass" ∨ event.Action = "fail" then
      match span with
      | none => StepResult.panicked s
      | some d => stepPassFail p s event d
    else StepResult.next s

/-- How `Main` comes to its end. -/
inductive Outcome where
  | ok
  | initErr (err : String)
  | decodeErr (err : String)
  | panicked
deriving DecidableEq, Repr

/-- The loop of lines 56-118 over the results of the successive
`decoder.Decode` calls; the end of the list is `io.EOF`. -/
def loop (p : Platform) : State → List (Except String TestEvent) → State × Outcome
  | s, [] => (s, Outcome.ok)
  | s, Except.error err :: _ => (s, Outcome.decodeErr err)
  | s, Except.ok event :: rest =>
    match step p s event with
    | StepResult.next s1 => loop p s1 rest
    | StepResult.panicked s1 => (s1, Outcome.panicked)

/-- The calls of one deferred function, on the variables as they are when `Main` ends. -/
def runDeferred (s : State) : Deferred → List Call
  | Deferred.shutdown => [Call.Shutdown]
  | Deferred.endOuter =>
    match s.outerSpan with
    | some outer => [Call.End outer (some s.lastEndTime)]
    | none => []

/-- The deferred functions run last-registered first. -/
def runDefers (s : State) : List Call :=
  (s.defers.map (runDeferred s)).flatten

/-- The function `Main`: all calls made on the collaborator and how the function ended.
`initErr` is the error of `initTracerProvider`, if any. -/
def Main (p : Platform) (initErr : Option String) (input : List (Except String TestEvent)) :
    List Call × Outcome :=
  match initErr with
  | some err => ([], Outcome.initErr err)
  | none =>
    let r := loop p init input
    (r.1.calls ++ runDefers r.1, r.2)

/-! ## Reading the call log -/

/-- The end time the collaborator records for an `End` call made when its clock
reads `now`: the timestamp option when one is passed, the current time otherwise. -/
def endTimestamp (now : Int) : Option Int → Int
  | some t => t
  | none => now

/-- Handles of the spans started without a parent span (the outer span). -/
def rootSpans (calls : List Call) : List Nat :=
  calls.filterMap fun c =>
    match c with
    | Call.Start h none _ _ _ => some h
    | _ => none

/-- Handles of the spans started below a parent span, with their names. -/
def childStarts (calls : List Call) : List (Nat × String) :=
  calls.filterMap fun c =>
    match c with
    | Call.Start h (some _) name _ _ => some (h, name)
    | _ => none

/-- Handles of the child spans. -/
def childSpans (calls : List Call) : List Nat :=
  (childStarts calls).map Prod.fst

/-- The event is a `pass` or `fail` of a named test. -/
def isPassFail (e : TestEvent) : Bool :=
  decide (e.Test ≠ "") && (decide (e.Action = "pass") || decide (e.Action = "fail"))

/-- The decoded events of an input, up to the first malformed record. -/
def decoded : List (Except String TestEvent) → List TestEvent
  | [] => []
  | Except.error _ :: _ => []
  | Except.ok e :: rest => e :: decoded rest

/-- The status codes set on span `r`, in the order of the calls. -/
def statusCalls (r : Nat) (calls : List Call) : List Code :=
  calls.filterMap fun c =>
    match c with
    | Call.SetStatus h code => if h = r then some code else none
    | _ => none

/-- The event is a `fail` for a test identifier that has a registry record in `s`. -/
def isRegisteredFail (s : State) (e : TestEvent) : Bool :=
  decide (e.Action = "fail") && (lookup s.spans e.Test).isSome

/-- The processed `fail` events whose test identifier was registered when they were
processed, following the loop from state `s`. -/
def registeredFails (p : Platform) : State → List (Except String TestEvent) → List TestEvent
  | _, [] => []
  | _, Except.error _ :: _ => []
  | s, Except.ok e :: rest =>
    match step p s e with
    | StepResult.next s1 =>
      (if isRegisteredFail s e then [e] else []) ++ registeredFails p s1 rest
    | StepResult.panicked _ => []

/-- The timestamp options of the `End` calls on span `r`, in the order of the calls. -/
def endCalls (r : Nat) (calls : List Call) : List (Option Int) :=
  calls.filterMap fun c =>
    match c with
    | Call.End h ts => if h = r then some ts else none
    | _ => none

/-- For every processed `pass` or `fail` event of a registered test, the recorded start
time of the test's registry record plus the duration derived from the event's elapsed
value, following the loop from state `s`. -/
def passFailEnds (p : Platform) : State → List (Except String TestEvent) → List Int
  | _, [] => []
  | _, Except.error _ :: _ => []
  | s, Except.ok e :: rest =>
    match step p s e with
    | StepResult.next s1 =>
      (if isPassFail e then
        match lookup s.spans e.Test with
        | some d => [d.start + toDuration p e.Elapsed]
        | none => []
       else []) ++ passFailEnds p s1 rest
    | StepResult.panicked _ => []

/-- The maximum of a list of times, if it has one. -/
def maximumOf : List Int → Option Int
  | [] => none
  | x :: xs => some (xs.foldl max x)

/-- The input with the timestamp of every `pass` and `fail` event replaced. -/
def retime (f : TestEvent → Int) (input : List (Except String TestEvent)) :
    List (Except String TestEvent) :=
  input.map fun it =>
    match it with
    | Except.ok e =>
      if e.Action = "pass" ∨ e.Action = "fail" then Except.ok { e with Time := f e }
      else Except.ok e
    | Except.error err => Except.error err

/-- The loop on a stream of well-formed records, from the initial state. -/
def runEvents (p : Platform) (evs : List TestEvent) : State × Outcome :=
  loop p init (evs.map Except.ok)

/-- The last `run` event for test `t` among `evs`. -/
def lastRun (t : String) (evs : List TestEvent) : Option TestEvent :=
  evs.reverse.find? fun e => decide (e.Test = t ∧ e.Action = "run")

/-- Every registry record was made by the last `run` event of its test: it holds that
event's timestamp and the span started for it below the outer span. -/
def RecordsFromRuns (p : Platform) (done : List TestEvent) (s : State) : Prop :=
  ∀ t d, lookup s.spans t = some d →
    ∃ run, lastRun t done = some run ∧ d.start = run.Time ∧
      Call.Start d.Span s.outerSpan t run.Time (childAttrs p run) ∈ s.calls

/-- The input without the events whose test identifier is empty. -/
def dropEmpty (input : List (Except String TestEvent)) : List (Except String TestEvent) :=
  input.filter fun it =>
    match it with
    | Except.ok e => decide (e.Test ≠ "")
    | Except.error _ => true

/-- The number of child spans started with name `t`. -/
def childStartsNamed (t : String) (calls : List Call) : Nat :=
  ((childStarts calls).filter fun hn => decide (hn.2 = t)).length

/-- The number of `run` events for test `t`. -/
def runsOf (t : String) (evs : List TestEvent) : Nat :=
  (evs.filter fun e => decide (e.Test = t ∧ e.Action = "run")).length

/-- The number of registry records held for test `t`. -/
def recordsOf (t : String) (spans : List (String × spanDetails)) : Nat :=
  (spans.filter fun kv => decide (kv.1 = t)).length

/-- The event is a `run` of a named test. -/
def isNamedRun (e : TestEvent) : Bool :=
  decide (e.Test ≠ "") && decide (e.Action = "run")

/-- The variables of `Main` and the call log when the loop leaves off on `input`. -/
def stateAfter (p : Platform) (input : List (Except String TestEvent)) : State :=
  (loop p init input).1

/-- The event with a `fail` action turned into `pass`. -/
def passify (e : TestEvent) : TestEvent :=
  if e.Action = "fail" then { e with Action := "pass" } else e

/-- Two states agree on everything but the call log and the running maximum. -/
def sameCourse (s s1 : State) : Prop :=
  s.ctx = s1.ctx ∧ s.spans = s1.spans ∧ s.outerSpan = s1.outerSpan ∧ s.nextSpan = s1.nextSpan

/-- Two results of an iteration are of the same kind, on states that agree but for the
call log and the running maximum. -/
def sameResult : StepResult → StepResult → Prop
  | StepResult.next s, StepResult.next s1 => sameCourse s s1
  | StepResult.panicked _, StepResult.panicked _ => True
  | _, _ => False

/-- The property of claim C1 for a call log, with `clock i` the collaborator's
clock when the `i`-th call is made: the timestamp that ends the outer span is not
before the recorded end time of any child span. -/
def RootEndBoundsChildren (clock : Nat → Int) (calls : List Call) : Prop :=
  ∀ r tr, r ∈ rootSpans calls → Call.End r (some tr) ∈ calls →
    ∀ i h ts, calls.get? i = some (Call.End h ts) → h ∈ childSpans calls →
      endTimestamp (clock i) ts ≤ tr

/-! ## Invariants -/

/-- What holds of the variables of `Main` at every iteration. -/
structure Inv (s : State) : Prop where
  ctx_eq : s.ctx = s.outerSpan
  outer_lt : ∀ r, s.outerSpan = some r → r < s.nextSpan
  spans_lt : ∀ k d, (k, d) ∈ s.spans → d.Span < s.nextSpan
  spans_gt : ∀ k d, (k, d) ∈ s.spans → ∃ r, s.outerSpan = some r ∧ r < d.Span
  spans_ne : ∀ k d, (k, d) ∈ s.spans → k ≠ ""
  defers_eq : s.defers =
    if s.outerSpan = none then [Deferred.shutdown] else [Deferred.endOuter, Deferred.shutdown]

/-- What holds of the call log at every iteration. -/
structure LogInv (s : State) : Prop where
  starts_lt : ∀ h par n t a, Call.Start h par n t a ∈ s.calls → h < s.nextSpan
  roots : rootSpans s.calls = s.outerSpan.toList
  child_parent : ∀ h par n t a, Call.Start h (some par) n t a ∈ s.calls →
    s.outerSpan = some par ∧ par < h
  ends_gt : ∀ h ts, Call.End h ts ∈ s.calls → ∃ r, s.outerSpan = some r ∧ r < h
  ends_le : ∀ h t, Call.End h (some t) ∈ s.calls → t ≤ s.lastEndTime
  no_shutdown : Call.Shutdown ∉ s.calls

/-! ## Sample inputs -/

/-- A platform for the sample runs. -/
def amd64 : Platform := ⟨"amd64", "linux", fun _ => -(2 : Int) ^ 63⟩

/-- The instant 2021-01-01T00:00:00Z. -/
def t2021 : Int := 63745056000000000000

/-- An event of test `test` in package `pkg` with no output text. -/
def mkEvent (time : Int) (action test : String) (elapsed : Float64) : Except String TestEvent :=
  Except.ok ⟨time, action, "pkg", test, elapsed, ""⟩

/-- Scenario 2: `run A@T0`, `run B@T0+1`, `fail B elapsed=1.0@T0+2`, `pass A elapsed=3.0@T0+4`. -/
def scenario2 (T0 : Int) : List (Except String TestEvent) :=
  [mkEvent T0 "run" "A" ⟨false, 0, 0⟩,
   mkEvent (T0 + 1000000000) "run" "B" ⟨false, 0, 0⟩,
   mkEvent (T0 + 2000000000) "fail" "B" ⟨false, 1, 0⟩,
   mkEvent (T0 + 4000000000) "pass" "A" ⟨false, 3, 0⟩]

/-- Scenario 1: `run A@T0`, `output "foo"@T0+1`, `pass A elapsed=2.5@T0+3`. -/
def scenario1 (T0 : Int) : List (Except String TestEvent) :=
  [Except.ok ⟨T0, "run", "pkg", "A", ⟨false, 0, 0⟩, ""⟩,
   Except.ok ⟨T0 + 1000000000, "output", "pkg", "A", ⟨false, 0, 0⟩, "foo"⟩,
   Except.ok ⟨T0 + 3000000000, "pass", "pkg", "A", ⟨false, 5, -1⟩, ""⟩]

/-- The events `run A@100`, `run A@200`, `pass A@300` with no elapsed time. -/
def runTwice : List TestEvent :=
  [⟨100, "run", "pkg", "A", ⟨false, 0, 0⟩, ""⟩,
   ⟨200, "run", "pkg", "A", ⟨false, 0, 0⟩, ""⟩,
   ⟨300, "pass", "pkg", "A", ⟨false, 0, 0⟩, ""⟩]

/-- The stream of the single event `pass A`, with no `run A` before it. -/
def passUnregistered : List (Except String TestEvent) :=
  [mkEvent 100 "pass" "A" ⟨false, 0, 0⟩]

/-- The stream of the event `pass A`, with no `run A` before it, then a malformed record. -/
def passThenMalformed : List (Except String TestEvent) :=
  [mkEvent 100 "pass" "A" ⟨false, 0, 0⟩, Except.error "invalid character"]

/-- The stream `run A`, then a malformed record, then `run B`. -/
def runThenMalformed : List (Except String TestEvent) :=
  [mkEvent 100 "run" "A" ⟨false, 0, 0⟩, Except.error "invalid character",
   mkEvent 200 "run" "B" ⟨false, 0, 0⟩]

/-- The stream `output` without test identifier, `run A`, `pause A`. -/
def outputThenRun : List (Except String TestEvent) :=
  [Except.ok ⟨50, "output", "pkg", "", ⟨false, 0, 0⟩, "ok"⟩,
   mkEvent 100 "run" "A" ⟨false, 0, 0⟩,
   mkEvent 200 "pause" "A" ⟨false, 0, 0⟩]

/-- Scenario 3: `run A@T0`, `skip A@T0+0.1`. -/
def scenario3 (T0 : Int) : List (Except String TestEvent) :=
  [mkEvent T0 "run" "A" ⟨false, 0, 0⟩,
   mkEvent (T0 + 100000000) "skip" "A" ⟨false, 0, 0⟩]

/-- Scenario 3 followed by a `pass A` event with elapsed time `el` at time `T`. -/
def scenario3ThenPass (T0 T : Int) (el : Float64) : List (Except String TestEvent) :=
  scenario3 T0 ++ [mkEvent T "pass" "A" el]

/-- Scenario 3 followed by `run A` at time `T1` and a `pass A` event with elapsed time
`el` at time `T2`. -/
def scenario3ThenRunPass (T0 T1 T2 : Int) (el : Float64) : List (Except String TestEvent) :=
  scenario3 T0 ++ [mkEvent T1 "run" "A" ⟨false, 0, 0⟩, mkEvent T2 "pass" "A" el]

/-- The duplicate-run stream `run A@T0`, `run A@T1`, `pass A` with elapsed value `el` at
time `T2`. -/
def duplicateRun (T0 T1 T2 : Int) (el : Float64) : List (Except String TestEvent) :=
  [mkEvent T0 "run" "A" ⟨false, 0, 0⟩, mkEvent T1 "run" "A" ⟨false, 0, 0⟩,
   mkEvent T2 "pass" "A" el]

/-- The events of Scenario 3 at 2021-01-01T00:00:00Z. -/
def runSkipEvents : List TestEvent :=
  [⟨t2021, "run", "pkg", "A", ⟨false, 0, 0⟩, ""⟩,
   ⟨t2021 + 100000000, "skip", "pkg", "A", ⟨false, 0, 0⟩, ""⟩]

/-- The stream `run A` at the zero time, `pass A elapsed=-1.0`. -/
def negativeElapsed : List (Except String TestEvent) :=
  [mkEvent 0 "run" "A" ⟨false, 0, 0⟩,
   mkEvent 0 "pass" "A" ⟨true, 1, 0⟩]

/-- The stream `run A`, `pass A elapsed=1.0`, `run B`, `skip B`, one second apart. -/
def passThenSkip : List (Except String TestEvent) :=
  [mkEvent t2021 "run" "A" ⟨false, 0, 0⟩,
   mkEvent (t2021 + 1000000000) "pass" "A" ⟨false, 1, 0⟩,
   mkEvent (t2021 + 2000000000) "run" "B" ⟨false, 0, 0⟩,
   mkEvent (t2021 + 3000000000) "skip" "B" ⟨false, 0, 0⟩]

/-! ## Theorems -/

/-! ### The registry as a map -/

theorem lookup_mem {l : List (String × spanDetails)} {k : String} {d : spanDetails}
    (h : lookup l k = some d) : (k, d) ∈ l := by
  induction l with
  | nil => simp [lookup] at h
  | cons kv rest ih =>
    obtain ⟨k', v⟩ := kv
    by_cases hk : k' = k
    · subst hk
      simp [lookup] at h
      simp [h]
    · simp [lookup, hk] at h
      exact List.mem_cons_of_mem _ (ih h)

theorem mem_delete {l : List (String × spanDetails)} {k k' : String} {d : spanDetails}
    (h : (k', d) ∈ delete l k) : (k', d) ∈ l ∧ k' ≠ k := by
  induction l with
  | nil => simp [delete] at h
  | cons kv rest ih =>
    obtain ⟨k0, v⟩ := kv
    by_cases hk : k0 = k
    · simp [delete, hk] at h
      exact ⟨List.mem_cons_of_mem _ (ih h).1, (ih h).2⟩
    · simp only [delete, hk, if_false, List.mem_cons] at h
      rcases h with h | h
      · cases h
        exact ⟨List.mem_cons_self _ _, hk⟩
      · exact ⟨List.mem_cons_of_mem _ (ih h).1, (ih h).2⟩

theorem mem_insert {l : List (String × spanDetails)} {k k' : String} {v d : spanDetails}
    (h : (k', d) ∈ insert l k v) : (k' = k ∧ d = v) ∨ ((k', d) ∈ l ∧ k' ≠ k) := by
  simp only [insert, List.mem_cons] at h
  rcases h with h | h
  · cases h
    exact Or.inl ⟨rfl, rfl⟩
  · exact Or.inr (mem_delete h)

/-! ### One iteration, by cases -/

theorem step_cases (p : Platform) (s : State) (e : TestEvent) :
    ((e.Test = "" ∨ (e.Action ≠ "run" ∧ e.Action ≠ "skip" ∧ e.Action ≠ "pause" ∧
        e.Action ≠ "cont" ∧ e.Action ≠ "output" ∧ e.Action ≠ "pass" ∧ e.Action ≠ "fail")) ∧
      step p s e = StepResult.next s)
    ∨ (e.Test ≠ "" ∧ e.Action ≠ "run" ∧ lookup s.spans e.Test = none ∧
        step p s e = StepResult.panicked s)
    ∨ (e.Test ≠ "" ∧ e.Action = "run" ∧ step p s e = StepResult.next (stepRun p s e))
    ∨ (∃ d, lookup s.spans e.Test = some d ∧ e.Action = "skip" ∧
        step p s e = StepResult.next { s with
          calls := s.calls ++ [Call.End d.Span none]
          spans := delete s.spans e.Test })
    ∨ (∃ d msg, lookup s.spans e.Test = some d ∧
        (((e.Action = "pause" ∨ e.Action = "cont") ∧ msg = e.Action) ∨
          (e.Action = "output" ∧ msg = e.Output)) ∧
        step p s e = StepResult.next { s with
          calls := s.calls ++ [Call.AddEvent d.Span msg e.Time] })
    ∨ (∃ d, lookup s.spans e.Test = some d ∧ e.Test ≠ "" ∧ e.Action ≠ "run" ∧
        (e.Action = "pass" ∨ e.Action = "fail") ∧ step p s e = stepPassFail p s e d) := by
  unfold step
  by_cases h0 : e.Test = ""
  · simp [h0]
  by_cases h1 : e.Action = "run"
  · simp [h0, h1]
  simp only [h0, h1, if_false]
  cases hl : lookup s.spans e.Test with
  | none =>
    simp only []
    split_ifs with h2 h3 h4 h5
    · right; left
      exact ⟨h0, h1, trivial, rfl⟩
    · right; left
      exact ⟨h0, h1, trivial, rfl⟩
    · right; left
      exact ⟨h0, h1, trivial, rfl⟩
    · right; left
      exact ⟨h0, h1, trivial, rfl⟩
    · left
      refine ⟨Or.inr ⟨h1, h2, ?_, ?_, h4, ?_, ?_⟩, rfl⟩
      · exact fun h => h3 (Or.inl h)
      · exact fun h => h3 (Or.inr h)
      · exact fun h => h5 (Or.inl h)
      · exact fun h => h5 (Or.inr h)
  | some d =>
    simp only []
    split_ifs with h2 h3 h4 h5
    · right; right; right; left
      exact ⟨d, rfl, h2, rfl⟩
    · right; right; right; right; left
      exact ⟨d, e.Action, rfl, Or.inl ⟨h3, rfl⟩, rfl⟩
    · right; right; right; right; left
      exact ⟨d, e.Output, rfl, Or.inr ⟨h4, rfl⟩, rfl⟩
    · right; right; right; right; right
      exact ⟨d, rfl, h0, h1, h5, rfl⟩
    · left
      refine ⟨Or.inr ⟨h1, h2, ?_, ?_, h4, ?_, ?_⟩, rfl⟩
      · exact fun h => h3 (Or.inl h)
      · exact fun h => h3 (Or.inr h)
      · exact fun h => h5 (Or.inl h)
      · exact fun h => h5 (Or.inr h)

theorem stepPassFail_state (p : Platform) (s : State) (e : TestEvent) (d : spanDetails) :
    ∃ new, (stepPassFail p s e d).state =
        { s with
          lastEndTime := max s.lastEndTime (d.start + toDuration p e.Elapsed)
          calls := s.calls ++ new } ∧
      ∀ c ∈ new, c = Call.SetStatus d.Span Code.Ok ∨ c = Call.SetStatus d.Span Code.Error ∨
        (∃ r, s.outerSpan = some r ∧ c = Call.SetStatus r Code.Error) ∨
        c = Call.End d.Span (some (d.start + toDuration p e.Elapsed)) := by
  have hmax : ∀ a b : Int, (if a < b then b else a) = max a b := by
    intro a b
    split_ifs with h
    · exact (max_eq_right (le_of_lt h)).symm
    · exact (max_eq_left (not_lt.mp h)).symm
  unfold stepPassFail
  by_cases hp : e.Action = "pass"
  · refine ⟨[Call.SetStatus d.Span Code.Ok,
      Call.End d.Span (some (d.start + toDuration p e.Elapsed))], ?_, ?_⟩
    · by_cases hlt : s.lastEndTime < d.start + toDuration p e.Elapsed
      · simp [hp, hlt, StepResult.state, max_eq_right (le_of_lt hlt)]
      · simp [hp, hlt, StepResult.state, max_eq_left (not_lt.mp hlt)]
    · intro c hc
      simp at hc
      rcases hc with hc | hc <;> simp [hc]
  · cases ho : s.outerSpan with
    | none =>
      refine ⟨[Call.SetStatus d.Span Code.Error], ?_, ?_⟩
      · by_cases hlt : s.lastEndTime < d.start + toDuration p e.Elapsed
        · simp [hp, hlt, ho, StepResult.state, max_eq_right (le_of_lt hlt)]
        · simp [hp, hlt, ho, StepResult.state, max_eq_left (not_lt.mp hlt)]
      · intro c hc
        simp at hc
        simp [hc]
    | some r =>
      refine ⟨[Call.SetStatus d.Span Code.Error, Call.SetStatus r Code.Error,
        Call.End d.Span (some (d.start + toDuration p e.Elapsed))], ?_, ?_⟩
      · by_cases hlt : s.lastEndTime < d.start + toDuration p e.Elapsed
        · simp [hp, hlt, ho, StepResult.state, max_eq_right (le_of_lt hlt)]
        · simp [hp, hlt, ho, StepResult.state, max_eq_left (not_lt.mp hlt)]
      · intro c hc
        simp at hc
        rcases hc with hc | hc | hc <;> simp [hc]

/-- A property kept by every iteration holds of the state in which the loop ends. -/
theorem loop_induct {P : State → Prop} (p : Platform)
    (hstep : ∀ s e, P s → P (step p s e).state) :
    ∀ (items : List (Except String TestEvent)) (s : State), P s → P (loop p s items).1 := by
  intro items
  induction items with
  | nil => intro s hs; simpa [loop] using hs
  | cons it rest ih =>
    intro s hs
    cases it with
    | error err => simpa [loop] using hs
    | ok e =>
      have h := hstep s e hs
      cases hr : step p s e with
      | next s1 =>
        rw [hr] at h
        simp only [loop, hr]
        exact ih s1 h
      | panicked s1 =>
        rw [hr] at h
        simpa [loop, hr] using h

theorem inv_init : Inv init := by
  constructor <;> simp [init]

theorem ensureOuter_cases (s : State) (e : TestEvent) :
    (∃ r, s.outerSpan = some r ∧ ensureOuter s e = s) ∨
    (s.outerSpan = none ∧ ensureOuter s e =
      { s with
        ctx := some s.nextSpan
        outerSpan := some s.nextSpan
        defers := Deferred.endOuter :: s.defers
        nextSpan := s.nextSpan + 1
        calls := s.calls ++ [Call.Start s.nextSpan s.ctx "test2json" e.Time [],
                             Call.SetStatus s.nextSpan Code.Ok] }) := by
  unfold ensureOuter
  cases h : s.outerSpan with
  | none => right; simp
  | some r => left; exact ⟨r, rfl, rfl⟩

theorem inv_stepRun (p : Platform) (s : State) (e : TestEvent) (he : e.Test ≠ "") (hs : Inv s) :
    Inv (stepRun p s e) := by
  unfold stepRun
  rcases ensureOuter_cases s e with ⟨r, hr, h1⟩ | ⟨hn, h1⟩
  · rw [h1]
    have hlt := hs.outer_lt r hr
    constructor
    · exact hs.ctx_eq
    · intro r' hr'
      have := hs.outer_lt r' hr'
      simp only []
      omega
    · intro k d hm
      rcases mem_insert hm with ⟨_, hd⟩ | ⟨hm', _⟩
      · simp [hd]
      · have := hs.spans_lt k d hm'
        simp only []
        omega
    · intro k d hm
      rcases mem_insert hm with ⟨_, hd⟩ | ⟨hm', _⟩
      · exact ⟨r, hr, by simp [hd, hlt]⟩
      · exact hs.spans_gt k d hm'
    · intro k d hm
      rcases mem_insert hm with ⟨hk, _⟩ | ⟨hm', _⟩
      · simpa [hk] using he
      · exact hs.spans_ne k d hm'
    · exact hs.defers_eq
  · rw [h1]
    have hsp : s.spans = [] := by
      cases hl : s.spans with
      | nil => rfl
      | cons kv rest =>
        obtain ⟨r, hr, _⟩ := hs.spans_gt kv.1 kv.2 (by simp [hl])
        simp [hn] at hr
    have hdf := hs.defers_eq
    simp only [hn, if_true] at hdf
    constructor
    · simp
    · intro r' hr'
      simp at hr'
      simp only []
      omega
    · intro k d hm
      simp only [hsp] at hm
      rcases mem_insert hm with ⟨_, hd⟩ | ⟨hm', _⟩
      · simp [hd]
      · simp at hm'
    · intro k d hm
      simp only [hsp] at hm
      rcases mem_insert hm with ⟨_, hd⟩ | ⟨hm', _⟩
      · exact ⟨s.nextSpan, rfl, by simp [hd]⟩
      · simp at hm'
    · intro k d hm
      simp only [hsp] at hm
      rcases mem_insert hm with ⟨hk, _⟩ | ⟨hm', _⟩
      · simpa [hk] using he
      · simp at hm'
    · simp [hdf]

theorem inv_step (p : Platform) (s : State) (e : TestEvent) (hs : Inv s) :
    Inv (step p s e).state := by
  rcases step_cases p s e with ⟨_, h⟩ | ⟨_, _, _, h⟩ | ⟨he, _, h⟩ | ⟨d, _, _, h⟩ |
    ⟨d, msg, _, _, h⟩ | ⟨d, _, _, _, _, h⟩
  · rw [h]; exact hs
  · rw [h]; exact hs
  · rw [h]; exact inv_stepRun p s e he hs
  · rw [h]
    constructor
    · exact hs.ctx_eq
    · exact hs.outer_lt
    · intro k d' hm
      exact hs.spans_lt k d' (mem_delete hm).1
    · intro k d' hm
      exact hs.spans_gt k d' (mem_delete hm).1
    · intro k d' hm
      exact hs.spans_ne k d' (mem_delete hm).1
    · exact hs.defers_eq
  · rw [h]
    exact ⟨hs.ctx_eq, hs.outer_lt, hs.spans_lt, hs.spans_gt, hs.spans_ne, hs.defers_eq⟩
  · rw [h]
    obtain ⟨new, hst, _⟩ := stepPassFail_state p s e d
    rw [hst]
    exact ⟨hs.ctx_eq, hs.outer_lt, hs.spans_lt, hs.spans_gt, hs.spans_ne, hs.defers_eq⟩

theorem inv_loop (p : Platform) (items : List (Except String TestEvent)) :
    Inv (loop p init items).1 :=
  loop_induct p (fun s e hs => inv_step p s e hs) items init inv_init

theorem rootSpans_append (a b : List Call) : rootSpans (a ++ b) = rootSpans a ++ rootSpans b := by
  simp [rootSpans, List.filterMap_append]

theorem logInv_init : LogInv init := by
  constructor <;> simp [init, rootSpans]

theorem logInv_stepRun (p : Platform) (s : State) (e : TestEvent) (hs : Inv s) (hl : LogInv s) :
    LogInv (stepRun p s e) := by
  unfold stepRun
  rcases ensureOuter_cases s e with ⟨r, hr, h1⟩ | ⟨hn, h1⟩
  · rw [h1]
    have hlt := hs.outer_lt r hr
    have hctx : s.ctx = some r := by rw [hs.ctx_eq, hr]
    constructor
    · intro h par n t a hm
      simp only [List.mem_append, List.mem_singleton] at hm
      rcases hm with hm | hm
      · have := hl.starts_lt h par n t a hm
        simp only []
        omega
      · cases hm
        simp
    · simp only [rootSpans_append, hl.roots]
      simp [rootSpans, hctx]
    · intro h par n t a hm
      simp only [List.mem_append, List.mem_singleton] at hm
      rcases hm with hm | hm
      · exact hl.child_parent h par n t a hm
      · simp only [hctx] at hm
        cases hm
        exact ⟨hr, hlt⟩
    · intro h ts hm
      simp only [List.mem_append, List.mem_singleton] at hm
      rcases hm with hm | hm
      · exact hl.ends_gt h ts hm
      · cases hm
    · intro h t hm
      simp only [List.mem_append, List.mem_singleton] at hm
      rcases hm with hm | hm
      · exact hl.ends_le h t hm
      · cases hm
    · intro hm
      simp only [List.mem_append, List.mem_singleton] at hm
      rcases hm with hm | hm
      · exact hl.no_shutdown hm
      · cases hm
  · rw [h1]
    have hctx : s.ctx = none := by rw [hs.ctx_eq, hn]
    have hroots := hl.roots
    simp only [hn, Option.toList] at hroots
    constructor
    · intro h par n t a hm
      simp only [List.mem_append, List.mem_singleton, List.mem_cons, List.mem_nil_iff,
        or_false] at hm
      rcases hm with (hm | hm | hm) | hm
      · have := hl.starts_lt h par n t a hm
        simp only []
        omega
      · cases hm
        simp only []
        omega
      · cases hm
      · cases hm
        simp
    · simp only [rootSpans_append, hroots]
      simp [rootSpans, hctx]
    · intro h par n t a hm
      simp only [List.mem_append, List.mem_singleton, List.mem_cons, List.mem_nil_iff,
        or_false] at hm
      rcases hm with (hm | hm | hm) | hm
      · have := (hl.child_parent h par n t a hm).1
        simp [hn] at this
      · simp only [hctx] at hm
        cases hm
      · cases hm
      · cases hm
        simp
    · intro h ts hm
      simp only [List.mem_append, List.mem_singleton, List.mem_cons, List.mem_nil_iff,
        or_false] at hm
      rcases hm with (hm | hm | hm) | hm
      · obtain ⟨r, hr, _⟩ := hl.ends_gt h ts hm
        simp [hn] at hr
      · cases hm
      · cases hm
      · cases hm
    · intro h t hm
      simp only [List.mem_append, List.mem_singleton, List.mem_cons, List.mem_nil_iff,
        or_false] at hm
      rcases hm with (hm | hm | hm) | hm
      · exact hl.ends_le h t hm
      · cases hm
      · cases hm
      · cases hm
    · intro hm
      simp only [List.mem_append, List.mem_singleton, List.mem_cons, List.mem_nil_iff,
        or_false] at hm
      rcases hm with (hm | hm | hm) | hm
      · exact hl.no_shutdown hm
      · cases hm
      · cases hm
      · cases hm

theorem logInv_step (p : Platform) (s : State) (e : TestEvent) (hs : Inv s) (hl : LogInv s) :
    LogInv (step p s e).state := by
  rcases step_cases p s e with ⟨_, h⟩ | ⟨_, _, _, h⟩ | ⟨_, _, h⟩ | ⟨d, hd, _, h⟩ |
    ⟨d, msg, _, _, h⟩ | ⟨d, hd, _, _, _, h⟩
  · rw [h]; exact hl
  · rw [h]; exact hl
  · rw [h]; exact logInv_stepRun p s e hs hl
  · rw [h]
    constructor
    · intro h par n t a hm
      simp only [StepResult.state, List.mem_append, List.mem_singleton] at hm
      rcases hm with hm | hm
      · exact hl.starts_lt h par n t a hm
      · cases hm
    · simp only [StepResult.state, rootSpans_append, hl.roots]
      simp [rootSpans]
    · intro h par n t a hm
      simp only [StepResult.state, List.mem_append, List.mem_singleton] at hm
      rcases hm with hm | hm
      · exact hl.child_parent h par n t a hm
      · cases hm
    · intro h ts hm
      simp only [StepResult.state, List.mem_append, List.mem_singleton] at hm
      rcases hm with hm | hm
      · exact hl.ends_gt h ts hm
      · cases hm
        exact hs.spans_gt _ d (lookup_mem hd)
    · intro h t hm
      simp only [StepResult.state, List.mem_append, List.mem_singleton] at hm
      rcases hm with hm | hm
      · exact hl.ends_le h t hm
      · cases hm
    · intro hm
      simp only [StepResult.state, List.mem_append, List.mem_singleton] at hm
      rcases hm with hm | hm
      · exact hl.no_shutdown hm
      · cases hm
  · rw [h]
    constructor
    · intro h par n t a hm
      simp only [StepResult.state, List.mem_append, List.mem_singleton] at hm
      rcases hm with hm | hm
      · exact hl.starts_lt h par n t a hm
      · cases hm
    · simp only [StepResult.state, rootSpans_append, hl.roots]
      simp [rootSpans]
    · intro h par n t a hm
      simp only [StepResult.state, List.mem_append, List.mem_singleton] at hm
      rcases hm with hm | hm
      · exact hl.child_parent h par n t a hm
      · cases hm
    · intro h ts hm
      simp only [StepResult.state, List.mem_append, List.mem_singleton] at hm
      rcases hm with hm | hm
      · exact hl.ends_gt h ts hm
      · cases hm
    · intro h t hm
      simp only [StepResult.state, List.mem_append, List.mem_singleton] at hm
      rcases hm with hm | hm
      · exact hl.ends_le h t hm
      · cases hm
    · intro hm
      simp only [StepResult.state, List.mem_append, List.mem_singleton] at hm
      rcases hm with hm | hm
      · exact hl.no_shutdown hm
      · cases hm
  · rw [h]
    obtain ⟨new, hst, hnew⟩ := stepPassFail_state p s e d
    rw [hst]
    have hroot : rootSpans new = [] := by
      simp only [rootSpans, List.filterMap_eq_nil_iff]
      intro c hc
      rcases hnew c hc with hc | hc | ⟨r, _, hc⟩ | hc <;> simp [hc]
    constructor
    · intro h par n t a hm
      simp only [List.mem_append] at hm
      rcases hm with hm | hm
      · exact hl.starts_lt h par n t a hm
      · rcases hnew _ hm with hc | hc | ⟨r, _, hc⟩ | hc <;> cases hc
    · simp only [rootSpans_append, hl.roots, hroot, List.append_nil]
    · intro h par n t a hm
      simp only [List.mem_append] at hm
      rcases hm with hm | hm
      · exact hl.child_parent h par n t a hm
      · rcases hnew _ hm with hc | hc | ⟨r, _, hc⟩ | hc <;> cases hc
    · intro h ts hm
      simp only [List.mem_append] at hm
      rcases hm with hm | hm
      · exact hl.ends_gt h ts hm
      · rcases hnew _ hm with hc | hc | ⟨r, _, hc⟩ | hc <;> cases hc
        exact hs.spans_gt _ d (lookup_mem hd)
    · intro h t hm
      simp only [List.mem_append] at hm
      rcases hm with hm | hm
      · exact le_trans (hl.ends_le h t hm) (le_max_left _ _)
      · rcases hnew _ hm with hc | hc | ⟨r, _, hc⟩ | hc <;> cases hc
        exact le_max_right _ _
    · intro hm
      simp only [List.mem_append] at hm
      rcases hm with hm | hm
      · exact hl.no_shutdown hm
      · rcases hnew _ hm with hc | hc | ⟨r, _, hc⟩ | hc <;> cases hc

theorem invs_loop (p : Platform) (items : List (Except String TestEvent)) :
    Inv (loop p init items).1 ∧ LogInv (loop p init items).1 :=
  loop_induct (P := fun s => Inv s ∧ LogInv s) p
    (fun s e hs => ⟨inv_step p s e hs.1, logInv_step p s e hs.1 hs.2⟩) items init
    ⟨inv_init, logInv_init⟩

/-- The calls of the deferred functions: the outer span, if one was started, is ended
with the running maximum, then the provider is shut down. -/
theorem runDefers_eq (s : State) (hs : Inv s) :
    runDefers s =
      (match s.outerSpan with
        | none => []
        | some r => [Call.End r (some s.lastEndTime)]) ++ [Call.Shutdown] := by
  unfold runDefers
  rw [hs.defers_eq]
  cases h : s.outerSpan with
  | none => simp [runDeferred]
  | some r => simp [runDeferred, h]

theorem Main_calls (p : Platform) (input : List (Except String TestEvent)) :
    (Main p none input).1 = (loop p init input).1.calls ++ runDefers (loop p init input).1 := by
  simp [Main]

theorem toDuration_three (p : Platform) : toDuration p ⟨false, 3, 0⟩ = 3000000000 := by
  have h : Float64.mul ⟨false, 3, 0⟩ secondF = some ⟨false, 6291456000000000, -21⟩ := by decide
  rw [toDuration, h]
  rfl

theorem toDuration_neg_one (p : Platform) : toDuration p ⟨true, 1, 0⟩ = -1000000000 := by
  have h : Float64.mul ⟨true, 1, 0⟩ secondF = some ⟨true, 8388608000000000, -23⟩ := by decide
  rw [toDuration, h]
  rfl

theorem toDuration_two_and_half (p : Platform) :
    toDuration p ⟨false, 5, -1⟩ = 2500000000 := by
  have h : Float64.mul ⟨false, 5, -1⟩ secondF = some ⟨false, 5242880000000000, -21⟩ := by decide
  rw [toDuration, h]
  rfl

theorem toDuration_one (p : Platform) : toDuration p ⟨false, 1, 0⟩ = 1000000000 := by
  have h : Float64.mul ⟨false, 1, 0⟩ secondF = some ⟨false, 8388608000000000, -23⟩ := by decide
  rw [toDuration, h]
  rfl

/-- All calls of a run: those of the loop, the end of the outer span if one was started,
and the shutdown of the provider. -/
theorem Main_calls_eq (p : Platform) (input : List (Except String TestEvent)) :
    (Main p none input).1 = (loop p init input).1.calls ++
      ((match (loop p init input).1.outerSpan with
        | none => []
        | some r => [Call.End r (some (loop p init input).1.lastEndTime)]) ++ [Call.Shutdown]) := by
  rw [Main_calls, runDefers_eq _ (invs_loop p input).1]

theorem passThenSkip_calls :
    (Main amd64 none passThenSkip).1 =
      [Call.Start 0 none "test2json" t2021 [],
       Call.SetStatus 0 Code.Ok,
       Call.Start 1 (some 0) "A" t2021
         [("code.namespace", "pkg"), ("code.function", "A"), ("host.arch", "amd64"),
          ("os.name", "linux")],
       Call.SetStatus 1 Code.Ok,
       Call.End 1 (some (t2021 + 1000000000)),
       Call.Start 2 (some 0) "B" (t2021 + 2000000000)
         [("code.namespace", "pkg"), ("code.function", "B"), ("host.arch", "amd64"),
          ("os.name", "linux")],
       Call.End 2 none,
       Call.End 0 (some (t2021 + 1000000000)),
       Call.Shutdown] := by
  simp [Main, passThenSkip, mkEvent, loop, step, stepRun, ensureOuter, init, insert, delete,
    lookup, stepPassFail, toDuration_one, runDefers, runDeferred, childAttrs, amd64, t2021]

/-- Scenario 2 with the times and the two durations kept abstract. -/
theorem scenario2_calls_of (p : Platform) (T0 T1 T2 T3 : Int) (eB eA : Float64)
    (h1 : 0 < T1 + toDuration p eB) (h2 : T1 + toDuration p eB < T0 + toDuration p eA) :
    (Main p none
      [mkEvent T0 "run" "A" ⟨false, 0, 0⟩,
       mkEvent T1 "run" "B" ⟨false, 0, 0⟩,
       mkEvent T2 "fail" "B" eB,
       mkEvent T3 "pass" "A" eA]).1 =
      [Call.Start 0 none "test2json" T0 [],
       Call.SetStatus 0 Code.Ok,
       Call.Start 1 (some 0) "A" T0
         [("code.namespace", "pkg"), ("code.function", "A"), ("host.arch", p.GOARCH),
          ("os.name", p.GOOS)],
       Call.Start 2 (some 0) "B" T1
         [("code.namespace", "pkg"), ("code.function", "B"), ("host.arch", p.GOARCH),
          ("os.name", p.GOOS)],
       Call.SetStatus 2 Code.Error,
       Call.SetStatus 0 Code.Error,
       Call.End 2 (some (T1 + toDuration p eB)),
       Call.SetStatus 1 Code.Ok,
       Call.End 1 (some (T0 + toDuration p eA)),
       Call.End 0 (some (T0 + toDuration p eA)),
       Call.Shutdown] := by
  simp [Main, mkEvent, loop, step, stepRun, ensureOuter, init, insert, delete,
    lookup, stepPassFail, runDefers, runDeferred, childAttrs, h1, h2]

theorem scenario2_calls (p : Platform) (T0 : Int) (h0 : 0 ≤ T0) :
    (Main p none (scenario2 T0)).1 =
      [Call.Start 0 none "test2json" T0 [],
       Call.SetStatus 0 Code.Ok,
       Call.Start 1 (some 0) "A" T0
         [("code.namespace", "pkg"), ("code.function", "A"), ("host.arch", p.GOARCH),
          ("os.name", p.GOOS)],
       Call.Start 2 (some 0) "B" (T0 + 1000000000)
         [("code.namespace", "pkg"), ("code.function", "B"), ("host.arch", p.GOARCH),
          ("os.name", p.GOOS)],
       Call.SetStatus 2 Code.Error,
       Call.SetStatus 0 Code.Error,
       Call.End 2 (some (T0 + 1000000000 + 1000000000)),
       Call.SetStatus 1 Code.Ok,
       Call.End 1 (some (T0 + 3000000000)),
       Call.End 0 (some (T0 + 3000000000)),
       Call.Shutdown] := by
  have h := scenario2_calls_of p T0 (T0 + 1000000000) (T0 + 2000000000) (T0 + 4000000000)
    ⟨false, 1, 0⟩ ⟨false, 3, 0⟩ (by rw [toDuration_one]; omega)
    (by rw [toDuration_one, toDuration_three]; omega)
  rw [toDuration_one, toDuration_three] at h
  exact h

/-! ### C1 -/

/-- C1, as stated, fails: in the stream `run A`, `pass A elapsed=1.0`, `run B`, `skip B`,
processed to end-of-stream, the outer span is ended with the timestamp of A's end, while
the child B is ended by `skip` without a timestamp, hence at the collaborator's clock,
which reads four seconds after the first event. -/
theorem C1_counterexample :
    (Main amd64 none passThenSkip).2 = Outcome.ok ∧
    (decoded passThenSkip).any isPassFail = true ∧
    ¬ RootEndBoundsChildren (fun _ => t2021 + 4000000000) (Main amd64 none passThenSkip).1 := by
  refine ⟨by rfl, by decide, ?_⟩
  intro h
  have h1 := h 0 (t2021 + 1000000000) (by simp [passThenSkip_calls, rootSpans])
    (by simp [passThenSkip_calls]) 6 2 none (by simp [passThenSkip_calls])
    (by simp [passThenSkip_calls, childSpans, childStarts])
  simp [endTimestamp] at h1

/-- C1, amended: in every run, whatever its outcome, the timestamp with which the outer
span is ended is greater than or equal to the timestamp of every `End` call that carries
one, which are the ends of the children ended by `pass` or `fail`. -/
theorem C1_root_end_bounds_timed_ends (p : Platform) (input : List (Except String TestEvent))
    (r : Nat) (tr : Int) (h : Nat) (t : Int)
    (hr : r ∈ rootSpans (Main p none input).1)
    (hroot : Call.End r (some tr) ∈ (Main p none input).1)
    (hchild : Call.End h (some t) ∈ (Main p none input).1) : t ≤ tr := by
  obtain ⟨hinv, hlog⟩ := invs_loop p input
  rw [Main_calls_eq] at hr hroot hchild
  cases ho : (loop p init input).1.outerSpan with
  | none =>
    simp only [ho, rootSpans_append, hlog.roots] at hr
    simp [rootSpans] at hr
  | some r0 =>
    simp only [ho, rootSpans_append, hlog.roots] at hr hroot hchild
    have hr0 : r = r0 := by simpa [rootSpans] using hr
    subst hr0
    have htr : tr = (loop p init input).1.lastEndTime := by
      simp only [List.mem_append, List.mem_cons, List.mem_nil_iff, or_false] at hroot
      rcases hroot with hm | hm | hm
      · obtain ⟨r1, hr1, hlt⟩ := hlog.ends_gt r (some tr) hm
        rw [ho] at hr1
        cases hr1
        omega
      · cases hm
        rfl
      · cases hm
    simp only [List.mem_append, List.mem_cons, List.mem_nil_iff, or_false] at hchild
    rcases hchild with hm | hm | hm
    · rw [htr]
      exact hlog.ends_le h t hm
    · cases hm
      rw [htr]
    · cases hm

/-- C1, amended, on the stream `run A`, `pass A elapsed=1.0`, `run B`, `skip B`. -/
theorem C1_root_end_bounds_timed_ends_witness :
    0 ∈ rootSpans (Main amd64 none passThenSkip).1 ∧
    Call.End 0 (some (t2021 + 1000000000)) ∈ (Main amd64 none passThenSkip).1 ∧
    Call.End 1 (some (t2021 + 1000000000)) ∈ (Main amd64 none passThenSkip).1 ∧
    t2021 + 1000000000 ≤ t2021 + 1000000000 :=
  ⟨by simp [passThenSkip_calls, rootSpans], by simp [passThenSkip_calls],
   by simp [passThenSkip_calls],
   C1_root_end_bounds_timed_ends amd64 passThenSkip 0 (t2021 + 1000000000) 1
    (t2021 + 1000000000) (by simp [passThenSkip_calls, rootSpans])
    (by simp [passThenSkip_calls]) (by simp [passThenSkip_calls])⟩

/-! ### Status calls on the outer span -/

theorem statusCalls_append (r : Nat) (a b : List Call) :
    statusCalls r (a ++ b) = statusCalls r a ++ statusCalls r b := by
  simp [statusCalls, List.filterMap_append]

/-- Under the invariant an iteration that panics leaves the variables as they were. -/
theorem step_panicked (p : Platform) (s s1 : State) (e : TestEvent) (hs : Inv s)
    (h : step p s e = StepResult.panicked s1) : s1 = s := by
  rcases step_cases p s e with ⟨_, h1⟩ | ⟨_, _, _, h1⟩ | ⟨_, _, h1⟩ | ⟨d, _, _, h1⟩ |
    ⟨d, msg, _, _, h1⟩ | ⟨d, hd, _, _, _, h1⟩
  · rw [h1] at h; cases h
  · rw [h1] at h; cases h; rfl
  · rw [h1] at h; cases h
  · rw [h1] at h; cases h
  · rw [h1] at h; cases h
  · obtain ⟨r, hr, _⟩ := hs.spans_gt _ d (lookup_mem hd)
    rw [h1] at h
    unfold stepPassFail at h
    by_cases hp : e.Action = "pass"
    · simp [hp] at h
    · by_cases hlt : s.lastEndTime < d.start + toDuration p e.Elapsed <;>
        simp [hp, hlt, hr] at h

theorem lookup_none_of_outer_none (s : State) (hs : Inv s) (hn : s.outerSpan = none)
    (k : String) : lookup s.spans k = none := by
  cases hl : lookup s.spans k with
  | none => rfl
  | some d =>
    obtain ⟨r, hr, _⟩ := hs.spans_gt k d (lookup_mem hl)
    simp [hn] at hr

theorem lookup_empty_key (s : State) (hs : Inv s) : lookup s.spans "" = none := by
  cases hl : lookup s.spans "" with
  | none => rfl
  | some d => exact absurd rfl (hs.spans_ne "" d (lookup_mem hl))

theorem statusCalls_stepPassFail (p : Platform) (s s1 : State) (e : TestEvent) (d : spanDetails)
    (r : Nat) (hr : s.outerSpan = some r) (hd : r < d.Span)
    (h : stepPassFail p s e d = StepResult.next s1) :
    s1.outerSpan = some r ∧
    statusCalls r s1.calls =
      statusCalls r s.calls ++ (if e.Action = "pass" then [] else [Code.Error]) := by
  have hne : ¬ d.Span = r := by omega
  unfold stepPassFail at h
  by_cases hp : e.Action = "pass"
  · by_cases hlt : s.lastEndTime < d.start + toDuration p e.Elapsed
    · simp only [hp, hlt, if_true] at h
      cases h
      simp [hr, hp, statusCalls_append, statusCalls, hne]
    · simp only [hp, hlt, if_true, if_false] at h
      cases h
      simp [hr, hp, statusCalls_append, statusCalls, hne]
  · by_cases hlt : s.lastEndTime < d.start + toDuration p e.Elapsed
    · simp only [hp, hlt, if_true, if_false, hr] at h
      cases h
      simp [hr, hp, statusCalls_append, statusCalls, hne]
    · simp only [hp, hlt, if_false, hr] at h
      cases h
      simp [hr, hp, statusCalls_append, statusCalls, hne]

/-- The status calls on the outer span added by one iteration that goes on. -/
theorem step_status (p : Platform) (s s1 : State) (e : TestEvent) (hs : Inv s)
    (h : step p s e = StepResult.next s1) :
    (∀ r, s.outerSpan = some r → s1.outerSpan = some r ∧
      statusCalls r s1.calls =
        statusCalls r s.calls ++ (if isRegisteredFail s e then [Code.Error] else [])) ∧
    (s.outerSpan = none → s.calls = [] → isRegisteredFail s e = false ∧
      ((s1.outerSpan = none ∧ s1.calls = []) ∨
       (∃ r, s1.outerSpan = some r ∧ statusCalls r s1.calls = [Code.Ok]))) := by
  rcases step_cases p s e with ⟨hc, h1⟩ | ⟨_, _, _, h1⟩ | ⟨_, ha, h1⟩ | ⟨d, hd, ha, h1⟩ |
    ⟨d, msg, hd, ha, h1⟩ | ⟨d, hd, _, _, ha, h1⟩
  · rw [h1] at h; cases h
    have hf : isRegisteredFail s e = false := by
      rcases hc with hc | hc
      · simp [isRegisteredFail, hc, lookup_empty_key s hs]
      · simp [isRegisteredFail, hc.2.2.2.2.2.2]
    constructor
    · intro r hr
      exact ⟨hr, by simp [hf]⟩
    · intro hn hc
      exact ⟨hf, Or.inl ⟨hn, hc⟩⟩
  · rw [h1] at h; cases h
  · rw [h1] at h; cases h
    have hf : isRegisteredFail s e = false := by
      simp [isRegisteredFail, ha]
    constructor
    · intro r hr
      simp [stepRun, ensureOuter, hr, hf, statusCalls_append, statusCalls]
    · intro hn hc
      refine ⟨hf, Or.inr ⟨s.nextSpan, ?_⟩⟩
      simp [stepRun, ensureOuter, hn, hc, statusCalls]
  · rw [h1] at h; cases h
    have hf : isRegisteredFail s e = false := by
      simp [isRegisteredFail, ha]
    constructor
    · intro r hr
      simp [hr, hf, statusCalls_append, statusCalls]
    · intro hn _
      simp [lookup_none_of_outer_none s hs hn] at hd
  · rw [h1] at h; cases h
    have hf : isRegisteredFail s e = false := by
      rcases ha with ⟨ha | ha, _⟩ | ⟨ha, _⟩ <;> simp [isRegisteredFail, ha]
    constructor
    · intro r hr
      simp [hr, hf, statusCalls_append, statusCalls]
    · intro hn _
      simp [lookup_none_of_outer_none s hs hn] at hd
  · rw [h1] at h
    constructor
    · intro r hr
      obtain ⟨r', hr', hlt⟩ := hs.spans_gt _ d (lookup_mem hd)
      rw [hr] at hr'
      cases hr'
      obtain ⟨h2, h3⟩ := statusCalls_stepPassFail p s s1 e d r hr hlt h
      refine ⟨h2, ?_⟩
      rw [h3]
      rcases ha with ha | ha
      · simp [isRegisteredFail, ha]
      · simp [isRegisteredFail, ha, hd]
    · intro hn _
      simp [lookup_none_of_outer_none s hs hn] at hd

theorem statusCalls_loop (p : Platform) :
    ∀ (items : List (Except String TestEvent)) (s : State), Inv s →
      ∀ r, s.outerSpan = some r →
        (loop p s items).1.outerSpan = some r ∧
        statusCalls r (loop p s items).1.calls =
          statusCalls r s.calls ++
            List.replicate (registeredFails p s items).length Code.Error := by
  intro items
  induction items with
  | nil => intro s _ r hr; simp [loop, registeredFails, hr]
  | cons it rest ih =>
    intro s hs r hr
    cases it with
    | error err => simp [loop, registeredFails, hr]
    | ok e =>
      cases hst : step p s e with
      | panicked s1 =>
        have := step_panicked p s s1 e hs hst
        subst this
        simp [loop, registeredFails, hst, hr]
      | next s1 =>
        have hs1 : Inv s1 := by
          have := inv_step p s e hs
          rwa [hst] at this
        obtain ⟨h1, h2⟩ := (step_status p s s1 e hs hst).1 r hr
        obtain ⟨h3, h4⟩ := ih s1 hs1 r h1
        simp only [loop, registeredFails, hst]
        refine ⟨h3, ?_⟩
        rw [h4, h2]
        by_cases hf : isRegisteredFail s e = true
        · simp [hf, List.replicate_succ]
        · simp [hf]

theorem statusCalls_loop_none (p : Platform) :
    ∀ (items : List (Except String TestEvent)) (s : State), Inv s →
      s.outerSpan = none → s.calls = [] →
      ∀ r, (loop p s items).1.outerSpan = some r →
        statusCalls r (loop p s items).1.calls =
          Code.Ok :: List.replicate (registeredFails p s items).length Code.Error := by
  intro items
  induction items with
  | nil => intro s _ hn _ r hr; simp [loop, hn] at hr
  | cons it rest ih =>
    intro s hs hn hc r hr
    cases it with
    | error err => simp [loop, hn] at hr
    | ok e =>
      cases hst : step p s e with
      | panicked s1 =>
        have := step_panicked p s s1 e hs hst
        subst this
        simp [loop, hst, hn] at hr
      | next s1 =>
        have hs1 : Inv s1 := by
          have := inv_step p s e hs
          rwa [hst] at this
        obtain ⟨hf, h2⟩ := (step_status p s s1 e hs hst).2 hn hc
        simp only [loop, hst] at hr
        simp only [loop, registeredFails, hst, hf]
        rcases h2 with ⟨h2, h3⟩ | ⟨r1, h2, h3⟩
        · simpa using ih s1 hs1 h2 h3 r hr
        · obtain ⟨h4, h5⟩ := statusCalls_loop p rest s1 hs1 r1 h2
          rw [h4] at hr
          cases hr
          rw [h5, h3]
          simp

/-- The status calls on the outer span in a whole run: success once, when the span is
started, then failure once for every processed `fail` of a registered test. -/
theorem statusCalls_Main (p : Platform) (input : List (Except String TestEvent)) (r : Nat)
    (hr : r ∈ rootSpans (Main p none input).1) :
    statusCalls r (Main p none input).1 =
      Code.Ok :: List.replicate (registeredFails p init input).length Code.Error := by
  obtain ⟨hinv, hlog⟩ := invs_loop p input
  rw [Main_calls_eq] at hr ⊢
  cases ho : (loop p init input).1.outerSpan with
  | none =>
    simp only [ho, rootSpans_append, hlog.roots] at hr
    simp [rootSpans] at hr
  | some r0 =>
    simp only [ho, rootSpans_append, hlog.roots] at hr
    have hr0 : r = r0 := by simpa [rootSpans] using hr
    subst hr0
    rw [statusCalls_append, statusCalls_loop_none p input init inv_init rfl rfl r ho]
    simp [statusCalls]

/-! ### C2 -/

/-- C2: in every run in which an outer span `r` was started, (1) the last status set on
it is failure if and only if a `fail` event of a registered test was processed, (2) when
there is none the last status set is success, and (3) no status call that follows a
failure status on the outer span sets success. -/
theorem C2_root_status (p : Platform) (input : List (Except String TestEvent)) (r : Nat)
    (hr : r ∈ rootSpans (Main p none input).1) :
    ((statusCalls r (Main p none input).1).getLast? = some Code.Error ↔
      registeredFails p init input ≠ []) ∧
    (registeredFails p init input = [] →
      (statusCalls r (Main p none input).1).getLast? = some Code.Ok) ∧
    (∀ a b, statusCalls r (Main p none input).1 = a ++ Code.Error :: b → Code.Ok ∉ b) := by
  rw [statusCalls_Main p input r hr]
  generalize registeredFails p init input = fails
  have hlast : ∀ n : Nat, (Code.Ok :: List.replicate (n + 1) Code.Error).getLast? =
      some Code.Error := by
    intro n
    rw [List.replicate_succ', ← List.cons_append, List.getLast?_append]
    simp
  refine ⟨?_, ?_, ?_⟩
  · cases fails with
    | nil => simp
    | cons f fs =>
      simp only [List.length_cons, ne_eq, reduceCtorEq, not_false_eq_true, iff_true]
      exact hlast fs.length
  · intro h
    simp [h]
  · intro a b hab hb
    cases a with
    | nil => simp at hab
    | cons x a1 =>
      simp only [List.cons_append, List.cons.injEq] at hab
      have hmem : Code.Ok ∈ List.replicate fails.length Code.Error := by
        rw [hab.2]
        simp [hb]
      have := List.eq_of_mem_replicate hmem
      cases this

/-- C2 on Scenario 2: the `fail B` of the stream makes failure the last status of the
outer span. -/
theorem C2_root_status_witness :
    0 ∈ rootSpans (Main amd64 none (scenario2 t2021)).1 ∧
    (((statusCalls 0 (Main amd64 none (scenario2 t2021)).1).getLast? = some Code.Error ↔
      registeredFails amd64 init (scenario2 t2021) ≠ []) ∧
    (registeredFails amd64 init (scenario2 t2021) = [] →
      (statusCalls 0 (Main amd64 none (scenario2 t2021)).1).getLast? = some Code.Ok) ∧
    (∀ a b, statusCalls 0 (Main amd64 none (scenario2 t2021)).1 = a ++ Code.Error :: b →
      Code.Ok ∉ b)) :=
  ⟨by simp [scenario2_calls amd64 t2021 (by decide), rootSpans],
   C2_root_status amd64 (scenario2 t2021) 0
    (by simp [scenario2_calls amd64 t2021 (by decide), rootSpans])⟩

/-! ### The running maximum of the end times -/

theorem endCalls_append (r : Nat) (a b : List Call) :
    endCalls r (a ++ b) = endCalls r a ++ endCalls r b := by
  simp [endCalls, List.filterMap_append]

/-- The effect of one iteration that goes on upon the running maximum. -/
theorem step_lastEndTime (p : Platform) (s s1 : State) (e : TestEvent)
    (h : step p s e = StepResult.next s1) :
    s1.lastEndTime =
      (if isPassFail e then
        match lookup s.spans e.Test with
        | some d => [d.start + toDuration p e.Elapsed]
        | none => []
       else []).foldl max s.lastEndTime := by
  rcases step_cases p s e with ⟨hc, h1⟩ | ⟨_, _, _, h1⟩ | ⟨_, ha, h1⟩ | ⟨d, hd, ha, h1⟩ |
    ⟨d, msg, hd, ha, h1⟩ | ⟨d, hd, ht, _, ha, h1⟩
  · rw [h1] at h; cases h
    have hf : isPassFail e = false := by
      rcases hc with hc | hc
      · simp [isPassFail, hc]
      · simp [isPassFail, hc.2.2.2.2.2.1, hc.2.2.2.2.2.2]
    simp [hf]
  · rw [h1] at h; cases h
  · rw [h1] at h; cases h
    have hf : isPassFail e = false := by simp [isPassFail, ha]
    rcases ensureOuter_cases s e with ⟨r, _, h2⟩ | ⟨_, h2⟩ <;> simp [hf, stepRun, h2]
  · rw [h1] at h; cases h
    have hf : isPassFail e = false := by simp [isPassFail, ha]
    simp [hf]
  · rw [h1] at h; cases h
    have hf : isPassFail e = false := by
      rcases ha with ⟨ha | ha, _⟩ | ⟨ha, _⟩ <;> simp [isPassFail, ha]
    simp [hf]
  · have hf : isPassFail e = true := by
      rcases ha with ha | ha <;> simp [isPassFail, ha, ht]
    obtain ⟨new, hst, _⟩ := stepPassFail_state p s e d
    rw [← h1, h] at hst
    simp only [StepResult.state] at hst
    rw [hst]
    simp [hf, hd]

theorem loop_lastEndTime (p : Platform) :
    ∀ (items : List (Except String TestEvent)) (s : State), Inv s →
      (loop p s items).1.lastEndTime = (passFailEnds p s items).foldl max s.lastEndTime := by
  intro items
  induction items with
  | nil => intro s _; simp [loop, passFailEnds]
  | cons it rest ih =>
    intro s hs
    cases it with
    | error err => simp [loop, passFailEnds]
    | ok e =>
      cases hst : step p s e with
      | panicked s1 =>
        have := step_panicked p s s1 e hs hst
        subst this
        simp [loop, passFailEnds, hst]
      | next s1 =>
        have hs1 : Inv s1 := by
          have := inv_step p s e hs
          rwa [hst] at this
        simp only [loop, passFailEnds, hst, List.foldl_append]
        rw [ih s1 hs1, step_lastEndTime p s s1 e hst]

/-- The outer span is ended once in a run, with the running maximum. -/
theorem endCalls_Main (p : Platform) (input : List (Except String TestEvent)) (r : Nat)
    (hr : r ∈ rootSpans (Main p none input).1) :
    endCalls r (Main p none input).1 = [some (loop p init input).1.lastEndTime] := by
  obtain ⟨hinv, hlog⟩ := invs_loop p input
  rw [Main_calls_eq] at hr ⊢
  cases ho : (loop p init input).1.outerSpan with
  | none =>
    simp only [ho, rootSpans_append, hlog.roots] at hr
    simp [rootSpans] at hr
  | some r0 =>
    simp only [ho, rootSpans_append, hlog.roots] at hr
    have hr0 : r = r0 := by simpa [rootSpans] using hr
    subst hr0
    have hnil : endCalls r (loop p init input).1.calls = [] := by
      simp only [endCalls, List.filterMap_eq_nil_iff]
      intro c hc
      cases c with
      | End h ts =>
        obtain ⟨r1, hr1, hlt⟩ := hlog.ends_gt h ts hc
        rw [ho] at hr1
        cases hr1
        have : ¬ h = r := by omega
        simp [this]
      | _ => rfl
    rw [endCalls_append, hnil]
    simp [endCalls]

/-- A `pass` or `fail` event is handled without reading its timestamp. -/
theorem step_retime (p : Platform) (s : State) (e : TestEvent) (t : Int)
    (h : e.Action = "pass" ∨ e.Action = "fail") :
    step p s { e with Time := t } = step p s e := by
  rcases h with h | h <;> simp [step, stepPassFail, h]

theorem loop_retime (p : Platform) (f : TestEvent → Int) :
    ∀ (items : List (Except String TestEvent)) (s : State),
      loop p s (retime f items) = loop p s items := by
  intro items
  induction items with
  | nil => intro s; rfl
  | cons it rest ih =>
    intro s
    cases it with
    | error err => simp [retime, loop]
    | ok e =>
      by_cases h : e.Action = "pass" ∨ e.Action = "fail"
      · have h1 : retime f (Except.ok e :: rest) =
            Except.ok { e with Time := f e } :: retime f rest := by
          simp [retime, h]
        rw [h1]
        simp only [loop, step_retime p s e (f e) h]
        cases step p s e with
        | next s1 => exact ih s1
        | panicked s1 => rfl
      · have h1 : retime f (Except.ok e :: rest) = Except.ok e :: retime f rest := by
          simp [retime, h]
        rw [h1]
        simp only [loop]
        cases step p s e with
        | next s1 => exact ih s1
        | panicked s1 => rfl

/-! ### C3 -/

theorem negativeElapsed_calls :
    (Main amd64 none negativeElapsed).1 =
      [Call.Start 0 none "test2json" 0 [],
       Call.SetStatus 0 Code.Ok,
       Call.Start 1 (some 0) "A" 0
         [("code.namespace", "pkg"), ("code.function", "A"), ("host.arch", "amd64"),
          ("os.name", "linux")],
       Call.SetStatus 1 Code.Ok,
       Call.End 1 (some (-1000000000)),
       Call.End 0 (some 0),
       Call.Shutdown] := by
  simp [Main, negativeElapsed, mkEvent, loop, step, stepRun, ensureOuter, init, insert, delete,
    lookup, stepPassFail, toDuration_neg_one, runDefers, runDeferred, childAttrs, amd64]

/-- C3, as stated, fails: in the stream `run A` at the zero time, `pass A elapsed=-1.0`,
the only end time of a `pass` or `fail` event is one second before the zero time, and the
outer span is ended at the zero time, the initial value of the running maximum. -/
theorem C3_counterexample :
    0 ∈ rootSpans (Main amd64 none negativeElapsed).1 ∧
    maximumOf (passFailEnds amd64 init negativeElapsed) = some (-1000000000) ∧
    endCalls 0 (Main amd64 none negativeElapsed).1 = [some 0] ∧
    endCalls 0 (Main amd64 none negativeElapsed).1 ≠
      [maximumOf (passFailEnds amd64 init negativeElapsed)] := by
  have hm : maximumOf (passFailEnds amd64 init negativeElapsed) = some (-1000000000) := by
    simp [negativeElapsed, mkEvent, passFailEnds, step, stepRun, ensureOuter, init, insert,
      delete, lookup, stepPassFail, toDuration_neg_one, isPassFail, maximumOf]
  refine ⟨by simp [negativeElapsed_calls, rootSpans], hm, by simp [negativeElapsed_calls, endCalls],
    ?_⟩
  rw [hm]
  simp [negativeElapsed_calls, endCalls]

/-- C3, amended: in every run that started an outer span `r`, the outer span is ended
exactly once and the timestamp passed is the maximum of the zero time and of the end
times (recorded start + duration) of all processed `pass` and `fail` events; replacing
the timestamps of the `pass` and `fail` events changes no call of the run; and in
Scenario 2, for `T0` not before the zero time, the outer span is ended at `T0 + 3.0s`. -/
theorem C3_root_end_running_max (p : Platform) (input : List (Except String TestEvent))
    (r : Nat) (hr : r ∈ rootSpans (Main p none input).1) :
    endCalls r (Main p none input).1 = [some ((passFailEnds p init input).foldl max 0)] ∧
    (∀ f : TestEvent → Int, Main p none (retime f input) = Main p none input) ∧
    (∀ T0 : Int, 0 ≤ T0 →
      endCalls 0 (Main p none (scenario2 T0)).1 = [some (T0 + 3000000000)]) := by
  refine ⟨?_, ?_, ?_⟩
  · rw [endCalls_Main p input r hr, loop_lastEndTime p input init inv_init]
    rfl
  · intro f
    simp [Main, loop_retime]
  · intro T0 h0
    rw [scenario2_calls p T0 h0]
    simp [endCalls]

/-- C3, amended, on Scenario 2 at 2021-01-01T00:00:00Z. -/
theorem C3_root_end_running_max_witness :
    0 ∈ rootSpans (Main amd64 none (scenario2 t2021)).1 ∧
    (endCalls 0 (Main amd64 none (scenario2 t2021)).1 =
      [some ((passFailEnds amd64 init (scenario2 t2021)).foldl max 0)] ∧
    (∀ f : TestEvent → Int,
      Main amd64 none (retime f (scenario2 t2021)) = Main amd64 none (scenario2 t2021)) ∧
    (∀ T0 : Int, 0 ≤ T0 →
      endCalls 0 (Main amd64 none (scenario2 T0)).1 = [some (T0 + 3000000000)])) :=
  ⟨by simp [scenario2_calls amd64 t2021 (by decide), rootSpans],
   C3_root_end_running_max amd64 (scenario2 t2021) 0
    (by simp [scenario2_calls amd64 t2021 (by decide), rootSpans])⟩

/-! ### Registry records and the `run` events that made them -/

theorem lookup_delete (l : List (String × spanDetails)) (k t : String) :
    lookup (delete l k) t = if t = k then none else lookup l t := by
  induction l with
  | nil => simp [delete, lookup]
  | cons kv rest ih =>
    obtain ⟨k0, v⟩ := kv
    by_cases hk : k0 = k
    · subst hk
      by_cases ht : t = k0
      · subst ht
        simpa [delete] using ih
      · have : ¬ k0 = t := fun h => ht h.symm
        simp [delete, ih, ht, lookup, this]
    · by_cases ht : t = k
      · subst ht
        simpa [delete, hk, lookup] using ih
      · simp [delete, hk, lookup, ih, ht]

theorem lookup_insert (l : List (String × spanDetails)) (k t : String) (v : spanDetails) :
    lookup (insert l k v) t = if t = k then some v else lookup l t := by
  by_cases ht : t = k
  · simp [insert, lookup, ht]
  · have : ¬ k = t := fun h => ht h.symm
    simp [insert, lookup, ht, this, lookup_delete]

theorem lastRun_append (t : String) (done : List TestEvent) (e : TestEvent) :
    lastRun t (done ++ [e]) =
      if e.Test = t ∧ e.Action = "run" then some e else lastRun t done := by
  simp only [lastRun, List.reverse_append, List.reverse_cons, List.reverse_nil, List.nil_append,
    List.singleton_append, List.find?_cons]
  by_cases h : e.Test = t ∧ e.Action = "run"
  · simp [h]
  · simp [h]

theorem recordsFromRuns_step (p : Platform) (done : List TestEvent) (s s1 : State)
    (e : TestEvent) (hs : Inv s) (hr : RecordsFromRuns p done s)
    (h : step p s e = StepResult.next s1) : RecordsFromRuns p (done ++ [e]) s1 := by
  have keep : ∀ t d, lookup s.spans t = some d → ¬ (e.Test = t ∧ e.Action = "run") →
      ∀ more, ∃ run, lastRun t (done ++ [e]) = some run ∧ d.start = run.Time ∧
        Call.Start d.Span s.outerSpan t run.Time (childAttrs p run) ∈ s.calls ++ more := by
    intro t d hd hne more
    obtain ⟨run, h1, h2, h3⟩ := hr t d hd
    refine ⟨run, ?_, h2, List.mem_append_left _ h3⟩
    rw [lastRun_append, if_neg hne, h1]
  rcases step_cases p s e with ⟨hc, h1⟩ | ⟨_, _, _, h1⟩ | ⟨ht, ha, h1⟩ | ⟨d0, hd0, ha, h1⟩ |
    ⟨d0, msg, hd0, ha, h1⟩ | ⟨d0, hd0, ht, hnr, ha, h1⟩
  · rw [h1] at h; cases h
    intro t d hd
    have hne : ¬ (e.Test = t ∧ e.Action = "run") := by
      rintro ⟨h2, h3⟩
      rcases hc with hc | hc
      · rw [← h2, hc, lookup_empty_key s hs] at hd
        cases hd
      · exact hc.1 h3
    simpa using keep t d hd hne []
  · rw [h1] at h; cases h
  · rw [h1] at h; cases h
    intro t d hd
    have hsp : (stepRun p s e).spans =
        insert (ensureOuter s e).spans e.Test ⟨(ensureOuter s e).nextSpan, e.Time⟩ := rfl
    have hcl : (stepRun p s e).calls = (ensureOuter s e).calls ++
        [Call.Start (ensureOuter s e).nextSpan (ensureOuter s e).ctx e.Test e.Time
          (childAttrs p e)] := rfl
    have hou : (stepRun p s e).outerSpan = (ensureOuter s e).outerSpan := rfl
    rw [hsp, lookup_insert] at hd
    rw [hcl, hou]
    by_cases hte : t = e.Test
    · simp only [hte, if_true, Option.some.injEq] at hd
      subst hd
      subst hte
      refine ⟨e, ?_, rfl, ?_⟩
      · rw [lastRun_append]
        simp [ha]
      · rcases ensureOuter_cases s e with ⟨r, hr0, h2⟩ | ⟨hn, h2⟩
        · rw [h2]
          simp [hs.ctx_eq]
        · rw [h2]
          simp
    · simp only [hte, if_false] at hd
      have hne : ¬ (e.Test = t ∧ e.Action = "run") := fun h2 => hte h2.1.symm
      rcases ensureOuter_cases s e with ⟨r, hr0, h2⟩ | ⟨hn, h2⟩
      · rw [h2] at hd ⊢
        obtain ⟨run, h3, h4, h5⟩ := keep t d hd hne []
        exact ⟨run, h3, h4, List.mem_append_left _ (by simpa using h5)⟩
      · rw [h2] at hd
        simp only [] at hd
        rw [lookup_none_of_outer_none s hs hn] at hd
        cases hd
  · rw [h1] at h; cases h
    intro t d hd
    simp only [lookup_delete] at hd
    by_cases hte : t = e.Test
    · simp [hte] at hd
    · simp only [hte, if_false] at hd
      have hne : ¬ (e.Test = t ∧ e.Action = "run") := fun h2 => hte h2.1.symm
      exact keep t d hd hne _
  · rw [h1] at h; cases h
    intro t d hd
    have hne : ¬ (e.Test = t ∧ e.Action = "run") := by
      rintro ⟨_, h3⟩
      rcases ha with ⟨ha | ha, _⟩ | ⟨ha, _⟩ <;> simp [ha] at h3
    exact keep t d hd hne _
  · obtain ⟨new, hst, _⟩ := stepPassFail_state p s e d0
    rw [← h1, h] at hst
    simp only [StepResult.state] at hst
    rw [hst]
    intro t d hd
    exact keep t d hd (fun h2 => hnr h2.2) _

theorem recordsFromRuns_loop (p : Platform) :
    ∀ (evs done : List TestEvent) (s : State), Inv s → RecordsFromRuns p done s →
      (loop p s (evs.map Except.ok)).2 = Outcome.ok →
      RecordsFromRuns p (done ++ evs) (loop p s (evs.map Except.ok)).1 := by
  intro evs
  induction evs with
  | nil => intro done s _ hr _; simpa [loop] using hr
  | cons e rest ih =>
    intro done s hs hr hok
    cases hst : step p s e with
    | panicked s1 => simp [loop, hst] at hok
    | next s1 =>
      have hs1 : Inv s1 := by
        have := inv_step p s e hs
        rwa [hst] at this
      simp only [List.map_cons, loop, hst] at hok ⊢
      have := ih (done ++ [e]) s1 hs1 (recordsFromRuns_step p done s s1 e hs hr hst) hok
      simpa using this

theorem recordsFromRuns_runEvents (p : Platform) (evs : List TestEvent)
    (hok : (runEvents p evs).2 = Outcome.ok) : RecordsFromRuns p evs (runEvents p evs).1 := by
  have h0 : RecordsFromRuns p [] init := by
    intro t d hd
    simp [init, lookup] at hd
  simpa using recordsFromRuns_loop p evs [] init inv_init h0 hok

/-- The `pass`/`fail` case when an outer span exists, in closed form. -/
theorem stepPassFail_eq (p : Platform) (s : State) (e : TestEvent) (d : spanDetails) (root : Nat)
    (ho : s.outerSpan = some root) :
    stepPassFail p s e d = StepResult.next
      { s with
        lastEndTime := max s.lastEndTime (d.start + toDuration p e.Elapsed)
        calls := s.calls ++
          (if e.Action = "pass" then
            [Call.SetStatus d.Span Code.Ok,
             Call.End d.Span (some (d.start + toDuration p e.Elapsed))]
           else
            [Call.SetStatus d.Span Code.Error, Call.SetStatus root Code.Error,
             Call.End d.Span (some (d.start + toDuration p e.Elapsed))]) } := by
  unfold stepPassFail
  by_cases hp : e.Action = "pass"
  · by_cases hlt : s.lastEndTime < d.start + toDuration p e.Elapsed
    · simp [hp, hlt, max_eq_right (le_of_lt hlt)]
    · simp [hp, hlt, max_eq_left (not_lt.mp hlt)]
  · by_cases hlt : s.lastEndTime < d.start + toDuration p e.Elapsed
    · simp [hp, hlt, ho, max_eq_right (le_of_lt hlt)]
    · simp [hp, hlt, ho, max_eq_left (not_lt.mp hlt)]

/-- Scenario 1 with the times and the duration kept abstract. -/
theorem scenario1_of (p : Platform) (T0 T1 T2 : Int) (el : Float64)
    (h1 : 0 < T0 + toDuration p el) :
    Main p none
      [Except.ok ⟨T0, "run", "pkg", "A", ⟨false, 0, 0⟩, ""⟩,
       Except.ok ⟨T1, "output", "pkg", "A", ⟨false, 0, 0⟩, "foo"⟩,
       Except.ok ⟨T2, "pass", "pkg", "A", el, ""⟩] =
      ([Call.Start 0 none "test2json" T0 [],
        Call.SetStatus 0 Code.Ok,
        Call.Start 1 (some 0) "A" T0
          [("code.namespace", "pkg"), ("code.function", "A"), ("host.arch", p.GOARCH),
           ("os.name", p.GOOS)],
        Call.AddEvent 1 "foo" T1,
        Call.SetStatus 1 Code.Ok,
        Call.End 1 (some (T0 + toDuration p el)),
        Call.End 0 (some (T0 + toDuration p el)),
        Call.Shutdown], Outcome.ok) := by
  simp [Main, loop, step, stepRun, ensureOuter, init, insert, delete,
    lookup, stepPassFail, runDefers, runDeferred, childAttrs, h1]

theorem scenario1_eq (p : Platform) (T0 : Int) (h0 : 0 ≤ T0) :
    Main p none (scenario1 T0) =
      ([Call.Start 0 none "test2json" T0 [],
        Call.SetStatus 0 Code.Ok,
        Call.Start 1 (some 0) "A" T0
          [("code.namespace", "pkg"), ("code.function", "A"), ("host.arch", p.GOARCH),
           ("os.name", p.GOOS)],
        Call.AddEvent 1 "foo" (T0 + 1000000000),
        Call.SetStatus 1 Code.Ok,
        Call.End 1 (some (T0 + 2500000000)),
        Call.End 0 (some (T0 + 2500000000)),
        Call.Shutdown], Outcome.ok) := by
  have h := scenario1_of p T0 (T0 + 1000000000) (T0 + 3000000000) ⟨false, 5, -1⟩
    (by rw [toDuration_two_and_half]; omega)
  rw [toDuration_two_and_half] at h
  exact h

/-- Scenario 1 with the times and the duration kept abstract, for any start time. -/
theorem scenario1_max_of (p : Platform) (T0 T1 T2 : Int) (el : Float64) :
    Main p none
      [Except.ok ⟨T0, "run", "pkg", "A", ⟨false, 0, 0⟩, ""⟩,
       Except.ok ⟨T1, "output", "pkg", "A", ⟨false, 0, 0⟩, "foo"⟩,
       Except.ok ⟨T2, "pass", "pkg", "A", el, ""⟩] =
      ([Call.Start 0 none "test2json" T0 [],
        Call.SetStatus 0 Code.Ok,
        Call.Start 1 (some 0) "A" T0
          [("code.namespace", "pkg"), ("code.function", "A"), ("host.arch", p.GOARCH),
           ("os.name", p.GOOS)],
        Call.AddEvent 1 "foo" T1,
        Call.SetStatus 1 Code.Ok,
        Call.End 1 (some (T0 + toDuration p el)),
        Call.End 0 (some (max 0 (T0 + toDuration p el))),
        Call.Shutdown], Outcome.ok) := by
  by_cases h : 0 < T0 + toDuration p el
  · simp [Main, loop, step, stepRun, ensureOuter, init, insert, delete,
      lookup, stepPassFail, runDefers, runDeferred, childAttrs, h, max_eq_right (le_of_lt h)]
  · simp [Main, loop, step, stepRun, ensureOuter, init, insert, delete,
      lookup, stepPassFail, runDefers, runDeferred, childAttrs, h, max_eq_left (not_lt.mp h)]

theorem scenario1_max (p : Platform) (T0 : Int) :
    Main p none (scenario1 T0) =
      ([Call.Start 0 none "test2json" T0 [],
        Call.SetStatus 0 Code.Ok,
        Call.Start 1 (some 0) "A" T0
          [("code.namespace", "pkg"), ("code.function", "A"), ("host.arch", p.GOARCH),
           ("os.name", p.GOOS)],
        Call.AddEvent 1 "foo" (T0 + 1000000000),
        Call.SetStatus 1 Code.Ok,
        Call.End 1 (some (T0 + 2500000000)),
        Call.End 0 (some (max 0 (T0 + 2500000000))),
        Call.Shutdown], Outcome.ok) := by
  have h := scenario1_max_of p T0 (T0 + 1000000000) (T0 + 3000000000) ⟨false, 5, -1⟩
  rw [toDuration_two_and_half] at h
  exact h

/-- The outer span of Scenario 1 is ended at the zero time when `T0 + 2.5s` is not after
it. -/
theorem scenario1_early (p : Platform) (T0 : Int) (h : T0 + 2500000000 ≤ 0) :
    endCalls 0 (Main p none (scenario1 T0)).1 = [some 0] := by
  rw [scenario1_max, max_eq_left h]
  simp [endCalls]

/-! ### C4 -/

/-- C4, as stated, fails in its Scenario 1: with `T0` ten seconds before the zero time
(0000-12-31T23:59:50Z) the end `T0 + 2.5s` of span A is not after the zero time, the
running maximum keeps its initial value, and the outer span is ended at the zero time,
not at `T0 + 2.5s`. -/
theorem C4_counterexample :
    endCalls 1 (Main amd64 none (scenario1 (-10000000000))).1 =
      [some (-10000000000 + 2500000000)] ∧
    endCalls 0 (Main amd64 none (scenario1 (-10000000000))).1 = [some 0] ∧
    endCalls 0 (Main amd64 none (scenario1 (-10000000000))).1 ≠
      [some (-10000000000 + 2500000000)] := by
  have h0 := scenario1_early amd64 (-10000000000) (by decide)
  refine ⟨?_, h0, ?_⟩
  · rw [scenario1_max]
    simp [endCalls]
  · rw [h0]
    decide

/-- C4, amended: in the state reached by processing the events `pre` to their end, in
which the registry holds the record `d` for the test of a `pass` or `fail` event `e`:
(1) `d` was made by the last `run` event of that test, whose span `d.Span` was started
below the outer span, and the iteration for `e` goes on after exactly these calls: the
status of `d.Span` is set, to success for `pass` and to failure for `fail` (then also on
the outer span), and `d.Span` is ended at the timestamp of that `run` event plus the
duration derived from the elapsed value of `e`;
(2) the timestamp of `e` itself has no influence;
(3) in Scenario 1, for every `T0`, span A is started at `T0`, gets the annotation, status
success and the end `T0 + 2.5s`, and the outer span, started at `T0` with status success,
is ended at the later of the zero time and `T0 + 2.5s`, which is `T0 + 2.5s` whenever
that is after the zero time. -/
theorem C4_pass_fail_end (p : Platform) (pre : List TestEvent) (e : TestEvent) (d : spanDetails)
    (hok : (runEvents p pre).2 = Outcome.ok)
    (hd : lookup (runEvents p pre).1.spans e.Test = some d)
    (ha : e.Action = "pass" ∨ e.Action = "fail") :
    (∃ run root,
      lastRun e.Test pre = some run ∧ d.start = run.Time ∧
      (runEvents p pre).1.outerSpan = some root ∧ root ≠ d.Span ∧
      Call.Start d.Span (some root) e.Test run.Time (childAttrs p run)
        ∈ (runEvents p pre).1.calls ∧
      ∃ s1, step p (runEvents p pre).1 e = StepResult.next s1 ∧
        s1.calls = (runEvents p pre).1.calls ++
          (if e.Action = "pass" then
            [Call.SetStatus d.Span Code.Ok,
             Call.End d.Span (some (run.Time + toDuration p e.Elapsed))]
           else
            [Call.SetStatus d.Span Code.Error, Call.SetStatus root Code.Error,
             Call.End d.Span (some (run.Time + toDuration p e.Elapsed))])) ∧
    (∀ t : Int, step p (runEvents p pre).1 { e with Time := t } = step p (runEvents p pre).1 e) ∧
    (∀ T0 : Int,
      Main p none (scenario1 T0) =
        ([Call.Start 0 none "test2json" T0 [],
          Call.SetStatus 0 Code.Ok,
          Call.Start 1 (some 0) "A" T0
            [("code.namespace", "pkg"), ("code.function", "A"), ("host.arch", p.GOARCH),
             ("os.name", p.GOOS)],
          Call.AddEvent 1 "foo" (T0 + 1000000000),
          Call.SetStatus 1 Code.Ok,
          Call.End 1 (some (T0 + 2500000000)),
          Call.End 0 (some (max 0 (T0 + 2500000000))),
          Call.Shutdown], Outcome.ok) ∧
      (0 < T0 + 2500000000 → max 0 (T0 + 2500000000) = T0 + 2500000000)) := by
  have hinv : Inv (runEvents p pre).1 := inv_loop p _
  refine ⟨?_, fun t => step_retime p _ e t ha,
    fun T0 => ⟨scenario1_max p T0, fun h => max_eq_right (le_of_lt h)⟩⟩
  obtain ⟨run, h1, h2, h3⟩ := recordsFromRuns_runEvents p pre hok e.Test d hd
  obtain ⟨root, hroot, hlt⟩ := hinv.spans_gt e.Test d (lookup_mem hd)
  have hne : e.Test ≠ "" := hinv.spans_ne e.Test d (lookup_mem hd)
  rw [hroot] at h3
  refine ⟨run, root, h1, h2, hroot, by omega, h3, ?_⟩
  have hstep : step p (runEvents p pre).1 e = stepPassFail p (runEvents p pre).1 e d := by
    rcases ha with ha | ha <;> simp [step, hne, ha, hd]
  rw [hstep, stepPassFail_eq p _ e d root hroot, h2]
  exact ⟨_, rfl, rfl⟩

/-- C4, amended, on the stream `run A@100`, then `pass A elapsed=2.5@400`: the
reconstruction starts from the record `⟨1, 100⟩` made by the `run` event. -/
theorem C4_pass_fail_end_witness :
    (runEvents amd64 [⟨100, "run", "pkg", "A", ⟨false, 0, 0⟩, ""⟩]).2 = Outcome.ok ∧
    lookup (runEvents amd64 [⟨100, "run", "pkg", "A", ⟨false, 0, 0⟩, ""⟩]).1.spans "A"
      = some ⟨1, 100⟩ ∧
    (∀ t : Int,
      step amd64 (runEvents amd64 [⟨100, "run", "pkg", "A", ⟨false, 0, 0⟩, ""⟩]).1
        { Time := t, Action := "pass", Package := "pkg", Test := "A",
          Elapsed := ⟨false, 5, -1⟩, Output := "" } =
      step amd64 (runEvents amd64 [⟨100, "run", "pkg", "A", ⟨false, 0, 0⟩, ""⟩]).1
        ⟨400, "pass", "pkg", "A", ⟨false, 5, -1⟩, ""⟩) :=
  ⟨by decide, by decide,
   (C4_pass_fail_end amd64 [⟨100, "run", "pkg", "A", ⟨false, 0, 0⟩, ""⟩]
      ⟨400, "pass", "pkg", "A", ⟨false, 5, -1⟩, ""⟩ ⟨1, 100⟩ (by decide) (by decide)
      (Or.inl rfl)).2.1⟩

/-! ### The float64 conversion of the elapsed value -/

theorem bits_spec : ∀ (fuel n : Nat), n ≤ fuel → n ≠ 0 →
    1 ≤ bits fuel n ∧ 2 ^ (bits fuel n - 1) ≤ n ∧ n < 2 ^ bits fuel n := by
  intro fuel
  induction fuel with
  | zero => intro n h0 hn; omega
  | succ f ih =>
    intro n hle hn
    simp only [bits, hn, if_false]
    by_cases h2 : n / 2 = 0
    · have h1 : n = 1 := by omega
      subst h1
      cases f <;> simp [bits]
    · have hle2 : n / 2 ≤ f := by omega
      obtain ⟨hb, hlo, hhi⟩ := ih (n / 2) hle2 h2
      refine ⟨by omega, ?_, ?_⟩
      · have : bits f (n / 2) + 1 - 1 = (bits f (n / 2) - 1) + 1 := by omega
        rw [this, pow_succ]
        omega
      · rw [pow_succ]
        omega

theorem ilog2_spec (n : Nat) (hn : n ≠ 0) : 2 ^ ilog2 n ≤ n ∧ n < 2 ^ (ilog2 n + 1) := by
  obtain ⟨hb, hlo, hhi⟩ := bits_spec n n (le_refl n) hn
  have : ilog2 n + 1 = bits n n := by
    unfold ilog2
    omega
  exact ⟨hlo, by rw [this]; exact hhi⟩

theorem ilog2_lt_of_lt_pow (n k : Nat) (hn : n ≠ 0) (h : n < 2 ^ k) : ilog2 n < k := by
  by_contra hk
  have hk2 : k ≤ ilog2 n := by omega
  have h1 : 2 ^ k ≤ 2 ^ ilog2 n := Nat.pow_le_pow_right (by norm_num) hk2
  have h2 := (ilog2_spec n hn).1
  omega

/-- A rational `n * den / den` whose value is a whole number below `2^53` is rounded to
itself. -/
theorem roundToFloat64_whole (neg : Bool) (n den : Nat) (hden : 0 < den)
    (hn : n < 2 ^ 53) :
    ∃ k : Nat, roundToFloat64 neg (n * den) den = some ⟨neg, n * 2 ^ k, -(k : Int)⟩ := by
  by_cases h0 : n = 0
  · subst h0
    exact ⟨0, by simp [roundToFloat64]⟩
  have hnum : n * den ≠ 0 := Nat.mul_ne_zero h0 (by omega)
  have hden0 : den ≠ 0 := by omega
  -- the exponent chosen by the rounding is not positive
  have hl : ∀ l : Int,
      l = (if (if (0 : Int) ≤ (ilog2 (n * den) : Int) - (ilog2 den : Int)
                then decide (den * 2 ^ ((ilog2 (n * den) : Int) - (ilog2 den : Int)).toNat ≤ n * den)
                else decide (den ≤ n * den * 2 ^ (-((ilog2 (n * den) : Int) - (ilog2 den : Int))).toNat))
            then (ilog2 (n * den) : Int) - (ilog2 den : Int)
            else (ilog2 (n * den) : Int) - (ilog2 den : Int) - 1) → l ≤ 52 := by
    intro l hl
    have hb53 : ilog2 (n * den) < ilog2 den + 54 := by
      apply ilog2_lt_of_lt_pow _ _ hnum
      have h1 := (ilog2_spec den hden0).2
      calc n * den < 2 ^ 53 * 2 ^ (ilog2 den + 1) := Nat.mul_lt_mul'' hn h1
        _ = 2 ^ (ilog2 den + 54) := by rw [← pow_add]; congr 1; omega
    by_cases hb : (0 : Int) ≤ (ilog2 (n * den) : Int) - (ilog2 den : Int)
    · simp only [hb, if_true] at hl
      by_cases hge : den * 2 ^ ((ilog2 (n * den) : Int) - (ilog2 den : Int)).toNat ≤ n * den
      · simp only [hge, decide_True, if_true] at hl
        have h2 : 2 ^ ((ilog2 (n * den) : Int) - (ilog2 den : Int)).toNat ≤ n := by
          have h3 : 2 ^ ((ilog2 (n * den) : Int) - (ilog2 den : Int)).toNat * den ≤ n * den := by
            rw [Nat.mul_comm]; exact hge
          exact Nat.le_of_mul_le_mul_right h3 hden
        have h4 : ((ilog2 (n * den) : Int) - (ilog2 den : Int)).toNat < 53 := by
          by_contra hc
          have h5 : 2 ^ 53 ≤ 2 ^ ((ilog2 (n * den) : Int) - (ilog2 den : Int)).toNat :=
            Nat.pow_le_pow_right (by norm_num) (by omega)
          omega
        omega
      · simp only [hge, decide_False, Bool.false_eq_true, if_false] at hl
        omega
    · simp only [hb, if_false] at hl
      split_ifs at hl <;> omega
  unfold roundToFloat64
  simp only [hnum, if_false]
  generalize hlv : (if (if (0 : Int) ≤ (ilog2 (n * den) : Int) - (ilog2 den : Int)
                then decide (den * 2 ^ ((ilog2 (n * den) : Int) - (ilog2 den : Int)).toNat ≤ n * den)
                else decide (den ≤ n * den * 2 ^ (-((ilog2 (n * den) : Int) - (ilog2 den : Int))).toNat))
            then (ilog2 (n * den) : Int) - (ilog2 den : Int)
            else (ilog2 (n * den) : Int) - (ilog2 den : Int) - 1) = l
  have hl52 := hl l hlv.symm
  have he : max (l - 52) (-1074) ≤ 0 := max_le (by omega) (by norm_num)
  generalize max (l - 52) (-1074) = e at he
  refine ⟨(-e).toNat, ?_⟩
  have hq : n * den * 2 ^ (-e).toNat / den = n * 2 ^ (-e).toNat := by
    rw [Nat.mul_right_comm]
    exact Nat.mul_div_cancel _ hden
  have hr : n * den * 2 ^ (-e).toNat % den = 0 := by
    rw [Nat.mul_right_comm]
    exact Nat.mul_mod_left _ _
  have hee : -((-e).toNat : Int) = e := by omega
  have h971 : ¬ (971 < e ∨ (e = 971 ∧ n * 2 ^ (-e).toNat = 2 ^ 53)) := by
    rintro (h | ⟨h, _⟩) <;> omega
  simp only [he, if_true, hq, hr, Nat.mul_zero]
  have hm : ¬ (den < 0 ∨ (0 = den ∧ n * 2 ^ (-e).toNat % 2 = 1)) := by
    rintro (h | ⟨h, _⟩) <;> omega
  simp only [hm, if_false, h971, hee]

theorem trunc_whole (neg : Bool) (n k : Nat) :
    Float64.trunc ⟨neg, n * 2 ^ k, -(k : Int)⟩ = if neg then -(n : Int) else (n : Int) := by
  unfold Float64.trunc
  have hk : (-(-(k : Int))).toNat = k := by omega
  by_cases h0 : (0 : Int) ≤ -(k : Int)
  · have hk0 : k = 0 := by omega
    subst hk0
    simp
  · have hpos : 0 < 2 ^ k := pow_pos (by norm_num) k
    simp only [h0, if_false, hk, Nat.mul_div_cancel _ hpos]

/-- The conversion is exact when the float64 elapsed value times `10^9` is a whole
number below `2^53`. -/
theorem toDuration_whole (p : Platform) (neg : Bool) (m : Nat) (e : Int) (n : Nat)
    (hn : n < 2 ^ 53)
    (hprod : m * 1000000000 * 2 ^ e.toNat = n * 2 ^ (-e).toNat) :
    toDuration p ⟨neg, m, e⟩ = if neg then -(n : Int) else (n : Int) := by
  have hmul : ∃ k : Nat, Float64.mul ⟨neg, m, e⟩ secondF = some ⟨neg, n * 2 ^ k, -(k : Int)⟩ := by
    unfold Float64.mul secondF
    simp only [add_zero, Bool.bne_false]
    by_cases he : (0 : Int) ≤ e
    · have h1 : (-e).toNat = 0 := by omega
      rw [h1, pow_zero, Nat.mul_one] at hprod
      simp only [he, if_true, hprod]
      have := roundToFloat64_whole neg n 1 (by norm_num) hn
      simpa using this
    · have h1 : e.toNat = 0 := by omega
      rw [h1, pow_zero, Nat.mul_one] at hprod
      simp only [he, if_false, hprod]
      exact roundToFloat64_whole neg n (2 ^ (-e).toNat) (pow_pos (by norm_num) _) hn
  obtain ⟨k, hk⟩ := hmul
  unfold toDuration
  rw [hk]
  unfold toInt64
  simp only [trunc_whole]
  have hn' : (n : Int) < 2 ^ 53 := by exact_mod_cast hn
  have h53 : (2 : Int) ^ 53 < 2 ^ 63 := by norm_num
  cases neg
  · have : -(2 : Int) ^ 63 ≤ (n : Int) ∧ (n : Int) < 2 ^ 63 := by
      constructor <;> omega
    simp only [Bool.false_eq_true, if_false]
    rw [if_pos this]
  · have : -(2 : Int) ^ 63 ≤ -(n : Int) ∧ -(n : Int) < 2 ^ 63 := by
      constructor <;> omega
    simp only [if_true]
    rw [if_pos this]

/-- The binary exponent found by the rounding is at most `L0` when the value is below
`2^(L0+1)`. -/
theorem floorLog_le (num den L0 : Nat) (hnum : num ≠ 0) (hden : 0 < den)
    (hlt : num < den * 2 ^ (L0 + 1)) (l : Int)
    (hl : l = (if (if (0 : Int) ≤ (ilog2 num : Int) - (ilog2 den : Int)
                then decide (den * 2 ^ ((ilog2 num : Int) - (ilog2 den : Int)).toNat ≤ num)
                else decide (den ≤ num * 2 ^ (-((ilog2 num : Int) - (ilog2 den : Int))).toNat))
            then (ilog2 num : Int) - (ilog2 den : Int)
            else (ilog2 num : Int) - (ilog2 den : Int) - 1)) : l ≤ L0 := by
  have hden0 : den ≠ 0 := by omega
  have hb : ilog2 num < ilog2 den + (L0 + 2) := by
    apply ilog2_lt_of_lt_pow _ _ hnum
    have h1 := (ilog2_spec den hden0).2
    calc num < den * 2 ^ (L0 + 1) := hlt
      _ ≤ 2 ^ (ilog2 den + 1) * 2 ^ (L0 + 1) := Nat.mul_le_mul_right _ (le_of_lt h1)
      _ = 2 ^ (ilog2 den + (L0 + 2)) := by rw [← pow_add]; congr 1; omega
  by_cases hb0 : (0 : Int) ≤ (ilog2 num : Int) - (ilog2 den : Int)
  · simp only [hb0, if_true] at hl
    by_cases hge : den * 2 ^ ((ilog2 num : Int) - (ilog2 den : Int)).toNat ≤ num
    · simp only [hge, decide_True, if_true] at hl
      have h4 : ((ilog2 num : Int) - (ilog2 den : Int)).toNat < L0 + 1 := by
        by_contra hc
        have h5 : 2 ^ (L0 + 1) ≤ 2 ^ ((ilog2 num : Int) - (ilog2 den : Int)).toNat :=
          Nat.pow_le_pow_right (by norm_num) (by omega)
        have h6 : den * 2 ^ (L0 + 1) ≤ num :=
          le_trans (Nat.mul_le_mul_left _ h5) hge
        omega
      omega
    · simp only [hge, decide_False, Bool.false_eq_true, if_false] at hl
      omega
  · simp only [hb0, if_false] at hl
    split_ifs at hl <;> omega

/-- The shape of a rounded value below `2^(L0+1)` with `L0 ≤ 52`: its exponent is `-k`
with `k ≥ 52 - L0`, and its mantissa is the quotient of `num * 2^k` by `den`, or one
more, whichever is nearer. -/
theorem roundToFloat64_spec (neg : Bool) (num den L0 : Nat) (hnum : num ≠ 0) (hden : 0 < den)
    (hL0 : L0 ≤ 52) (hlt : num < den * 2 ^ (L0 + 1)) :
    ∃ k m : Nat, 52 - L0 ≤ k ∧ roundToFloat64 neg num den = some ⟨neg, m, -(k : Int)⟩ ∧
      ((m = num * 2 ^ k / den ∧ 2 * (num * 2 ^ k % den) ≤ den) ∨
       (m = num * 2 ^ k / den + 1 ∧ den ≤ 2 * (num * 2 ^ k % den))) := by
  unfold roundToFloat64
  simp only [hnum, if_false]
  generalize hlv : (if (if (0 : Int) ≤ (ilog2 num : Int) - (ilog2 den : Int)
                then decide (den * 2 ^ ((ilog2 num : Int) - (ilog2 den : Int)).toNat ≤ num)
                else decide (den ≤ num * 2 ^ (-((ilog2 num : Int) - (ilog2 den : Int))).toNat))
            then (ilog2 num : Int) - (ilog2 den : Int)
            else (ilog2 num : Int) - (ilog2 den : Int) - 1) = l
  have hl := floorLog_le num den L0 hnum hden hlt l hlv.symm
  have he : max (l - 52) (-1074) ≤ 0 ∧ (52 : Int) - L0 ≤ -(max (l - 52) (-1074)) := by
    rcases le_total (l - 52) (-1074) with h | h
    · rw [max_eq_right h]
      constructor <;> omega
    · rw [max_eq_left h]
      constructor <;> omega
  generalize max (l - 52) (-1074) = e at he
  obtain ⟨he0, hek⟩ := he
  have hee : -((-e).toNat : Int) = e := by omega
  have hk : 52 - L0 ≤ (-e).toNat := by omega
  simp only [he0, if_true]
  by_cases hc : den < 2 * (num * 2 ^ (-e).toNat % den) ∨
      (2 * (num * 2 ^ (-e).toNat % den) = den ∧ num * 2 ^ (-e).toNat / den % 2 = 1)
  · refine ⟨(-e).toNat, num * 2 ^ (-e).toNat / den + 1, hk, ?_, Or.inr ⟨rfl, ?_⟩⟩
    · have h971 : ¬ (971 < e ∨ (e = 971 ∧ num * 2 ^ (-e).toNat / den + 1 = 2 ^ 53)) := by
        rintro (h | ⟨h, _⟩) <;> omega
      simp only [hc, if_true, h971, if_false, hee]
    · rcases hc with h | ⟨h, _⟩ <;> omega
  · refine ⟨(-e).toNat, num * 2 ^ (-e).toNat / den, hk, ?_, Or.inl ⟨rfl, ?_⟩⟩
    · have h971 : ¬ (971 < e ∨ (e = 971 ∧ num * 2 ^ (-e).toNat / den = 2 ^ 53)) := by
        rintro (h | ⟨h, _⟩) <;> omega
      simp only [hc, if_false, h971, hee]
    · by_contra h
      exact hc (Or.inl (by omega))

/-- A nearest quotient is within half a divisor of the dividend. -/
theorem nearest_bounds (N D m : Nat) (hD : 0 < D)
    (h : (m = N / D ∧ 2 * (N % D) ≤ D) ∨ (m = N / D + 1 ∧ D ≤ 2 * (N % D))) :
    2 * (m * D) ≤ 2 * N + D ∧ 2 * N ≤ 2 * (m * D) + D := by
  have hdm : D * (N / D) + N % D = N := Nat.div_add_mod N D
  have hmod : N % D < D := Nat.mod_lt N hD
  generalize N / D = q at h hdm
  generalize N % D = r at h hdm hmod
  rcases h with ⟨rfl, h2⟩ | ⟨rfl, h2⟩
  · constructor <;> nlinarith
  · constructor <;> nlinarith

/-- A nearest quotient stays between two whole bounds of the exact quotient. -/
theorem nearest_between (N D m A B : Nat) (hD : 0 < D)
    (h : (m = N / D ∧ 2 * (N % D) ≤ D) ∨ (m = N / D + 1 ∧ D ≤ 2 * (N % D)))
    (hA : A * D ≤ N) (hB : N ≤ B * D) : A ≤ m ∧ m ≤ B := by
  have hdm : D * (N / D) + N % D = N := Nat.div_add_mod N D
  have hqA : A ≤ N / D := (Nat.le_div_iff_mul_le hD).mpr hA
  have hqB : N / D ≤ B := by
    apply Nat.div_le_of_le_mul
    rw [Nat.mul_comm]
    exact hB
  generalize N / D = q at h hdm hqA hqB
  generalize N % D = r at h hdm
  rcases h with ⟨rfl, _⟩ | ⟨rfl, h2⟩
  · exact ⟨hqA, hqB⟩
  · refine ⟨by omega, ?_⟩
    by_contra hc
    have hqeq : q = B := by omega
    subst hqeq
    have hr : 1 ≤ r := by omega
    nlinarith

/-- The float64 nearest to `n / 10^9`, for `1 ≤ n < 2^52`, times `10^9` is within a half
of `n`. -/
theorem parse_within_half (neg : Bool) (num den n : Nat) (hden : 0 < den) (hn0 : 0 < n)
    (hn : n < 2 ^ 52) (hq : num * 1000000000 = n * den) :
    ∃ k m : Nat, 30 ≤ k ∧ roundToFloat64 neg num den = some ⟨neg, m, -(k : Int)⟩ ∧
      2 * n * 2 ^ k ≤ 2 * (m * 1000000000) + 2 ^ k ∧
      2 * (m * 1000000000) ≤ 2 * n * 2 ^ k + 2 ^ k := by
  have hnum : num ≠ 0 := by
    intro h
    rw [h, Nat.zero_mul] at hq
    have := Nat.mul_pos hn0 hden
    omega
  have h52 : (2 : Nat) ^ 52 ≤ 2 ^ 23 * 1000000000 := by norm_num
  have hlt : num < den * 2 ^ (22 + 1) := by
    have h1 : num * 1000000000 < den * 2 ^ 23 * 1000000000 := by
      rw [hq]
      calc n * den < 2 ^ 52 * den := Nat.mul_lt_mul_of_pos_right hn hden
        _ ≤ 2 ^ 23 * 1000000000 * den := Nat.mul_le_mul_right _ h52
        _ = den * 2 ^ 23 * 1000000000 := by ring
    exact Nat.lt_of_mul_lt_mul_right h1
  obtain ⟨k, m, hk, hr, hm⟩ := roundToFloat64_spec neg num den 22 hnum hden (by norm_num) hlt
  have hk30 : 30 ≤ k := by omega
  refine ⟨k, m, hk30, hr, ?_⟩
  obtain ⟨h1, h2⟩ := nearest_bounds (num * 2 ^ k) den m hden hm
  have hK : (1000000000 : Nat) ≤ 2 ^ k :=
    le_trans (by norm_num : (1000000000 : Nat) ≤ 2 ^ 30) (Nat.pow_le_pow_right (by norm_num) hk30)
  generalize 2 ^ k = K at h1 h2 hK ⊢
  constructor
  · have h3 : (2 * n * K) * den ≤ (2 * (m * 1000000000) + K) * den := by
      have e1 : (2 * n * K) * den = 2 * (num * K) * 1000000000 := by
        calc (2 * n * K) * den = 2 * K * (n * den) := by ring
          _ = 2 * K * (num * 1000000000) := by rw [hq]
          _ = 2 * (num * K) * 1000000000 := by ring
      rw [e1]
      nlinarith
    exact Nat.le_of_mul_le_mul_right h3 hden
  · have h3 : (2 * (m * 1000000000)) * den ≤ (2 * n * K + K) * den := by
      have e1 : (2 * n * K) * den = 2 * (num * K) * 1000000000 := by
        calc (2 * n * K) * den = 2 * K * (n * den) := by ring
          _ = 2 * K * (num * 1000000000) := by rw [hq]
          _ = 2 * (num * K) * 1000000000 := by ring
      nlinarith
    exact Nat.le_of_mul_le_mul_right h3 hden

/-- The float64 product with `1e9` of a value within a half of `n / 10^9` lies between
`n - 1` and `n + 1`. -/
theorem product_between (neg : Bool) (m k n : Nat) (hk : 30 ≤ k) (hn0 : 0 < n)
    (hn : n < 2 ^ 52)
    (ha : 2 * n * 2 ^ k ≤ 2 * (m * 1000000000) + 2 ^ k)
    (hb : 2 * (m * 1000000000) ≤ 2 * n * 2 ^ k + 2 ^ k) :
    ∃ k1 m1 : Nat, 1 ≤ k1 ∧
      Float64.mul ⟨neg, m, -(k : Int)⟩ secondF = some ⟨neg, m1, -(k1 : Int)⟩ ∧
      (n - 1) * 2 ^ k1 ≤ m1 ∧ m1 < (n + 1) * 2 ^ k1 := by
  have hKpos : 0 < 2 ^ k := pow_pos (by norm_num) k
  have hmul : Float64.mul ⟨neg, m, -(k : Int)⟩ secondF =
      roundToFloat64 neg (m * 1000000000) (2 ^ k) := by
    unfold Float64.mul secondF
    have h1 : ¬ (0 : Int) ≤ -(k : Int) := by omega
    have h2 : (-(-(k : Int))).toNat = k := by omega
    simp only [add_zero, Bool.bne_false, h1, if_false, h2]
  have hP0 : m * 1000000000 ≠ 0 := by
    intro h
    rw [h] at ha
    have : 2 * 2 ^ k ≤ 2 * n * 2 ^ k := by nlinarith
    omega
  have hlt : m * 1000000000 < 2 ^ k * 2 ^ (51 + 1) := by
    have h1 : 2 * n + 1 < 2 * 2 ^ 52 := by omega
    have h2 : 2 * (m * 1000000000) < 2 * (2 ^ k * 2 ^ (51 + 1)) := by
      calc 2 * (m * 1000000000) ≤ 2 * n * 2 ^ k + 2 ^ k := hb
        _ = (2 * n + 1) * 2 ^ k := by ring
        _ < (2 * 2 ^ 52) * 2 ^ k := Nat.mul_lt_mul_of_pos_right h1 hKpos
        _ = 2 * (2 ^ k * 2 ^ (51 + 1)) := by ring
    exact Nat.lt_of_mul_lt_mul_left h2
  obtain ⟨k1, m1, hk1, hr, hm⟩ :=
    roundToFloat64_spec neg (m * 1000000000) (2 ^ k) 51 hP0 hKpos (by norm_num) hlt
  have hk1' : 1 ≤ k1 := by omega
  refine ⟨k1, m1, hk1', by rw [hmul, hr], ?_⟩
  obtain ⟨j, rfl⟩ : ∃ j, k1 = j + 1 := ⟨k1 - 1, by omega⟩
  have hJpos : 0 < 2 ^ j := pow_pos (by norm_num) j
  have hbet := nearest_between (m * 1000000000 * 2 ^ (j + 1)) (2 ^ k) m1
    ((2 * n - 1) * 2 ^ j) ((2 * n + 1) * 2 ^ j) hKpos hm
    (by
      rw [pow_succ]
      have h2n : 2 * n - 1 + 1 = 2 * n := by omega
      generalize 2 ^ k = K at ha hb hKpos ⊢
      generalize 2 ^ j = J at hJpos ⊢
      have h3 : (2 * n - 1) * K ≤ 2 * (m * 1000000000) := by
        have : (2 * n - 1) * K + K = 2 * n * K := by
          calc (2 * n - 1) * K + K = (2 * n - 1 + 1) * K := by ring
            _ = 2 * n * K := by rw [h2n]
        omega
      calc (2 * n - 1) * J * K = ((2 * n - 1) * K) * J := by ring
        _ ≤ (2 * (m * 1000000000)) * J := Nat.mul_le_mul_right _ h3
        _ = m * 1000000000 * (J * 2) := by ring)
    (by
      rw [pow_succ]
      generalize 2 ^ k = K at ha hb hKpos ⊢
      generalize 2 ^ j = J at hJpos ⊢
      have h3 : 2 * (m * 1000000000) ≤ (2 * n + 1) * K := by
        have : (2 * n + 1) * K = 2 * n * K + K := by ring
        omega
      calc m * 1000000000 * (J * 2) = (2 * (m * 1000000000)) * J := by ring
        _ ≤ ((2 * n + 1) * K) * J := Nat.mul_le_mul_right _ h3
        _ = (2 * n + 1) * J * K := by ring)
  obtain ⟨hA, hB⟩ := hbet
  rw [pow_succ]
  generalize 2 ^ j = J at hJpos hA hB ⊢
  constructor
  · have h1 : (n - 1) * (J * 2) ≤ (2 * n - 1) * J := by
      have h2 : (n - 1) * 2 ≤ 2 * n - 1 := by omega
      calc (n - 1) * (J * 2) = ((n - 1) * 2) * J := by ring
        _ ≤ (2 * n - 1) * J := Nat.mul_le_mul_right _ h2
    omega
  · have h1 : (2 * n + 1) * J < (n + 1) * (J * 2) := by
      have h2 : 2 * n + 1 < (n + 1) * 2 := by omega
      calc (2 * n + 1) * J < ((n + 1) * 2) * J := Nat.mul_lt_mul_of_pos_right h2 hJpos
        _ = (n + 1) * (J * 2) := by ring
    omega

/-- Truncation of a float64 with a negative exponent. -/
theorem trunc_neg_exp (neg : Bool) (m k : Nat) (hk : 1 ≤ k) :
    Float64.trunc ⟨neg, m, -(k : Int)⟩ =
      if neg then -((m / 2 ^ k : Nat) : Int) else ((m / 2 ^ k : Nat) : Int) := by
  unfold Float64.trunc
  have h1 : ¬ (0 : Int) ≤ -(k : Int) := by omega
  have h2 : (-(-(k : Int))).toNat = k := by omega
  simp only [h1, if_false, h2]

/-- The conversion of an elapsed value written as the decimal `num / den = n / 10^9`
seconds with `n < 2^52`: the duration is `n` nanoseconds or one less, with the sign of
the value. -/
theorem decimal_duration (p : Platform) (neg : Bool) (num den n : Nat) (hden : 0 < den)
    (hn : n < 2 ^ 52) (hq : num * 1000000000 = n * den) :
    ∃ (x : Float64) (d : Nat), roundToFloat64 neg num den = some x ∧
      toDuration p x = (if neg then -(d : Int) else (d : Int)) ∧
      (d = n ∨ d + 1 = n) := by
  by_cases hn0 : n = 0
  · subst hn0
    have hnum : num = 0 := by
      rw [Nat.zero_mul] at hq
      omega
    subst hnum
    refine ⟨⟨neg, 0, 0⟩, 0, by simp [roundToFloat64], ?_, Or.inl rfl⟩
    have := toDuration_whole p neg 0 0 0 (by norm_num) (by norm_num)
    simpa using this
  · have hpos : 0 < n := Nat.pos_of_ne_zero hn0
    obtain ⟨k, m, hk, hr, ha, hb⟩ := parse_within_half neg num den n hden hpos hn hq
    obtain ⟨k1, m1, hk1, hmul, hlo, hhi⟩ := product_between neg m k n hk hpos hn ha hb
    have hpow : 0 < 2 ^ k1 := pow_pos (by norm_num) k1
    have hdlo : n - 1 ≤ m1 / 2 ^ k1 := (Nat.le_div_iff_mul_le hpow).mpr hlo
    have hdhi : m1 / 2 ^ k1 < n + 1 := (Nat.div_lt_iff_lt_mul hpow).mpr hhi
    refine ⟨⟨neg, m, -(k : Int)⟩, m1 / 2 ^ k1, hr, ?_, by omega⟩
    unfold toDuration
    rw [hmul]
    unfold toInt64
    simp only [trunc_neg_exp neg m1 k1 hk1]
    have hd : ((m1 / 2 ^ k1 : Nat) : Int) < 2 ^ 52 + 1 := by
      have : m1 / 2 ^ k1 < 2 ^ 52 + 1 := by omega
      exact_mod_cast this
    cases neg
    · have hr2 : -(2 : Int) ^ 63 ≤ ((m1 / 2 ^ k1 : Nat) : Int) ∧
          ((m1 / 2 ^ k1 : Nat) : Int) < 2 ^ 63 := by
        constructor <;> omega
      simp only [Bool.false_eq_true, if_false]
      rw [if_pos hr2]
    · have hr2 : -(2 : Int) ^ 63 ≤ -((m1 / 2 ^ k1 : Nat) : Int) ∧
          -((m1 / 2 ^ k1 : Nat) : Int) < 2 ^ 63 := by
        constructor <;> omega
      simp only [if_true]
      rw [if_pos hr2]

/-! ### C5 -/

/-- C5, as stated, fails: the elapsed value written `1.001` is decoded to the nearest
float64, its float64 product with `1e9` is just below `1001000000`, and the truncating
conversion gives `1000999999` nanoseconds, one short of `1.001 * 10^9`. -/
theorem C5_counterexample :
    parseFloat false 1001 (-3) = some ⟨false, 4508103226997866, -52⟩ ∧
    Float64.mul ⟨false, 4508103226997866, -52⟩ secondF =
      some ⟨false, 8396996607999999, -23⟩ ∧
    toDuration amd64 ⟨false, 4508103226997866, -52⟩ = 1000999999 ∧
    toDuration amd64 ⟨false, 4508103226997866, -52⟩ ≠ 1001 * 10 ^ 6 := by
  have h1 : Float64.mul ⟨false, 4508103226997866, -52⟩ secondF =
      some ⟨false, 8396996607999999, -23⟩ := by
    set_option maxRecDepth 4000 in decide
  have h2 : toDuration amd64 ⟨false, 4508103226997866, -52⟩ = 1000999999 := by
    rw [toDuration, h1]
    rfl
  refine ⟨by decide, h1, h2, ?_⟩
  rw [h2]
  decide

/-- C5, amended: for the elapsed value written as the decimal `(-1)^neg * m * 10^-j`
seconds with at most nine decimals (`j ≤ 9`) and below `2^52` nanoseconds in magnitude,
the decoded float64 `x` exists and the duration is, with the sign of the value, the
number `m * 10^(9-j)` of nanoseconds or one nanosecond less; the duration is exactly the
elapsed value times `10^9` whenever the float64 elapsed value `(-1)^s * a * 2^e` times
`10^9` is a whole number `n` below `2^53`; in particular the elapsed value written `2.5`
is decoded to `5629499534213120 * 2^-51` and gives exactly 2,500,000,000 ns. -/
theorem C5_within_one_nanosecond (p : Platform) (neg : Bool) (m j : Nat) (hj : j ≤ 9)
    (hn : m * 10 ^ (9 - j) < 2 ^ 52) :
    (∃ (x : Float64) (d : Nat), parseFloat neg m (-(j : Int)) = some x ∧
      toDuration p x = (if neg then -(d : Int) else (d : Int)) ∧
      (d = m * 10 ^ (9 - j) ∨ d + 1 = m * 10 ^ (9 - j))) ∧
    (∀ (s : Bool) (a : Nat) (e : Int) (n : Nat), n < 2 ^ 53 →
      a * 1000000000 * 2 ^ e.toNat = n * 2 ^ (-e).toNat →
      toDuration p ⟨s, a, e⟩ = if s then -(n : Int) else (n : Int)) ∧
    parseFloat false 25 (-1) = some ⟨false, 5629499534213120, -51⟩ ∧
    toDuration p ⟨false, 5629499534213120, -51⟩ = 2500000000 := by
  refine ⟨?_, fun s a e n h1 h2 => toDuration_whole p s a e n h1 h2, by decide, ?_⟩
  · have h10 : (10 : Nat) ^ (9 - j) * 10 ^ j = 1000000000 := by
      rw [← pow_add]
      have : 9 - j + j = 9 := by omega
      rw [this]
      norm_num
    unfold parseFloat
    by_cases h0 : (0 : Int) ≤ -(j : Int)
    · have hj0 : j = 0 := by omega
      subst hj0
      simp only [h0, if_true]
      exact decimal_duration p neg (m * 10 ^ (-((0 : Nat) : Int)).toNat) 1 (m * 10 ^ (9 - 0))
        (by norm_num) hn (by simp)
    · have h2 : (-(-(j : Int))).toNat = j := by omega
      simp only [h0, if_false, h2]
      exact decimal_duration p neg m (10 ^ j) (m * 10 ^ (9 - j)) (pow_pos (by norm_num) j) hn
        (by rw [Nat.mul_assoc, h10])
  · have := toDuration_whole p false 5629499534213120 (-51) 2500000000 (by norm_num)
      (by decide)
    simpa using this

/-- C5, amended, at the elapsed value written `1.001`: the duration is 1,001,000,000 ns
or one less. -/
theorem C5_within_one_nanosecond_witness :
    3 ≤ 9 ∧ 1001 * 10 ^ (9 - 3) < 2 ^ 52 ∧
    ∃ (x : Float64) (d : Nat), parseFloat false 1001 (-((3 : Nat) : Int)) = some x ∧
      toDuration amd64 x = (if false then -(d : Int) else (d : Int)) ∧
      (d = 1001 * 10 ^ (9 - 3) ∨ d + 1 = 1001 * 10 ^ (9 - 3)) :=
  ⟨by norm_num, by norm_num,
   (C5_within_one_nanosecond amd64 false 1001 3 (by norm_num) (by norm_num)).1⟩

/-! ### C6 -/

theorem step_empty (p : Platform) (s : State) (e : TestEvent) (he : e.Test = "") :
    step p s e = StepResult.next s := by
  simp [step, he]

theorem loop_dropEmpty (p : Platform) :
    ∀ (items : List (Except String TestEvent)) (s : State),
      loop p s (dropEmpty items) = loop p s items := by
  intro items
  induction items with
  | nil => intro s; rfl
  | cons it rest ih =>
    intro s
    cases it with
    | error err => simp [dropEmpty, loop]
    | ok e =>
      by_cases he : e.Test = ""
      · have h1 : dropEmpty (Except.ok e :: rest) = dropEmpty rest := by
          simp [dropEmpty, he]
        rw [h1, ih s]
        simp [loop, step_empty p s e he]
      · have h1 : dropEmpty (Except.ok e :: rest) = Except.ok e :: dropEmpty rest := by
          simp [dropEmpty, he]
        rw [h1]
        simp only [loop]
        cases step p s e with
        | next s1 => exact ih s1
        | panicked s1 => rfl

/-- C6: in every state an event with an empty test identifier, whatever its action, is
handled by going on with all variables and the call log exactly as they were; hence a
run on any input makes the same calls and ends the same way as the run on the input
without its empty-identifier events. -/
theorem C6_empty_identifier_dropped (p : Platform) (s : State) (e : TestEvent)
    (he : e.Test = "") :
    step p s e = StepResult.next s ∧
    ∀ (initErr : Option String) (input : List (Except String TestEvent)),
      Main p initErr (dropEmpty input) = Main p initErr input := by
  refine ⟨step_empty p s e he, ?_⟩
  intro initErr input
  cases initErr with
  | some err => rfl
  | none => simp [Main, loop_dropEmpty]

/-- C6 on a `fail` event without test identifier, in the state after `run A`. -/
theorem C6_empty_identifier_dropped_witness :
    step amd64 (runEvents amd64 [⟨100, "run", "pkg", "A", ⟨false, 0, 0⟩, ""⟩]).1
        ⟨200, "fail", "pkg", "", ⟨false, 1, 0⟩, "x"⟩ =
      StepResult.next (runEvents amd64 [⟨100, "run", "pkg", "A", ⟨false, 0, 0⟩, ""⟩]).1 :=
  (C6_empty_identifier_dropped amd64
    (runEvents amd64 [⟨100, "run", "pkg", "A", ⟨false, 0, 0⟩, ""⟩]).1
    ⟨200, "fail", "pkg", "", ⟨false, 1, 0⟩, "x"⟩ rfl).1

/-! ### Child spans and `run` events -/

theorem childStarts_append (a b : List Call) :
    childStarts (a ++ b) = childStarts a ++ childStarts b := by
  simp [childStarts, List.filterMap_append]

theorem childStartsNamed_append (t : String) (a b : List Call) :
    childStartsNamed t (a ++ b) = childStartsNamed t a + childStartsNamed t b := by
  simp [childStartsNamed, childStarts_append]

theorem recordsOf_delete (l : List (String × spanDetails)) (k t : String) :
    recordsOf t (delete l k) = if t = k then 0 else recordsOf t l := by
  induction l with
  | nil => simp [delete, recordsOf]
  | cons kv rest ih =>
    obtain ⟨k0, v⟩ := kv
    unfold recordsOf at ih ⊢
    by_cases hk : k0 = k
    · subst hk
      by_cases ht : t = k0
      · subst ht
        simpa [delete] using ih
      · have : ¬ k0 = t := fun h => ht h.symm
        simp only [delete, if_true, ih, ht, if_false]
        simp [List.filter_cons, this]
    · by_cases ht : t = k
      · subst ht
        simp only [delete, hk, if_false, if_true]
        simp only [if_true] at ih
        simp [List.filter_cons, hk, ih]
      · simp only [delete, hk, ht, if_false] at ih ⊢
        by_cases h0 : k0 = t
        · simp [List.filter_cons, h0, ih]
        · simp [List.filter_cons, h0, ih]

theorem recordsOf_insert (l : List (String × spanDetails)) (k t : String) (v : spanDetails) :
    recordsOf t (insert l k v) = if t = k then 1 else recordsOf t l := by
  have h := recordsOf_delete l k t
  unfold recordsOf at h ⊢
  by_cases ht : t = k
  · subst ht
    simp only [if_true] at h
    simp [insert, List.filter_cons, h]
  · have : ¬ k = t := fun h => ht h.symm
    simp only [ht, if_false] at h ⊢
    simp [insert, List.filter_cons, this, h]

/-- The registry never holds two records for one test. -/
theorem recordsOf_step (p : Platform) (s : State) (e : TestEvent)
    (h : ∀ t, recordsOf t s.spans ≤ 1) : ∀ t, recordsOf t (step p s e).state.spans ≤ 1 := by
  intro t
  rcases step_cases p s e with ⟨_, h1⟩ | ⟨_, _, _, h1⟩ | ⟨_, _, h1⟩ | ⟨d, _, _, h1⟩ |
    ⟨d, msg, _, _, h1⟩ | ⟨d, _, _, _, _, h1⟩
  · rw [h1]; exact h t
  · rw [h1]; exact h t
  · rw [h1]
    have hsp : (stepRun p s e).spans =
        insert (ensureOuter s e).spans e.Test ⟨(ensureOuter s e).nextSpan, e.Time⟩ := rfl
    have heo : (ensureOuter s e).spans = s.spans := by
      rcases ensureOuter_cases s e with ⟨r, _, h2⟩ | ⟨_, h2⟩ <;> rw [h2]
    simp only [StepResult.state, hsp, heo, recordsOf_insert]
    split_ifs
    · exact le_refl 1
    · exact h t
  · rw [h1]
    simp only [StepResult.state, recordsOf_delete]
    split_ifs
    · exact Nat.zero_le 1
    · exact h t
  · rw [h1]; exact h t
  · rw [h1]
    obtain ⟨new, hst, _⟩ := stepPassFail_state p s e d
    rw [hst]
    exact h t

theorem recordsOf_loop (p : Platform) (input : List (Except String TestEvent)) (t : String) :
    recordsOf t (loop p init input).1.spans ≤ 1 :=
  loop_induct (P := fun s => ∀ t, recordsOf t s.spans ≤ 1) p
    (fun s e hs => recordsOf_step p s e hs) input init (by intro t; simp [init, recordsOf]) t

/-- Only a `run` event adds a `Start` call. -/
theorem step_no_start (p : Platform) (s : State) (e : TestEvent) (ha : e.Action ≠ "run")
    (h : Nat) (par : Option Nat) (n : String) (ts : Int) (a : List (String × String))
    (hm : Call.Start h par n ts a ∈ (step p s e).state.calls) :
    Call.Start h par n ts a ∈ s.calls := by
  rcases step_cases p s e with ⟨_, h1⟩ | ⟨_, _, _, h1⟩ | ⟨_, hr, _⟩ | ⟨d, _, _, h1⟩ |
    ⟨d, msg, _, _, h1⟩ | ⟨d, _, _, _, _, h1⟩
  · rw [h1] at hm; exact hm
  · rw [h1] at hm; exact hm
  · exact absurd hr ha
  · rw [h1] at hm
    simp only [StepResult.state, List.mem_append, List.mem_singleton] at hm
    rcases hm with hm | hm
    · exact hm
    · cases hm
  · rw [h1] at hm
    simp only [StepResult.state, List.mem_append, List.mem_singleton] at hm
    rcases hm with hm | hm
    · exact hm
    · cases hm
  · rw [h1] at hm
    obtain ⟨new, hst, hnew⟩ := stepPassFail_state p s e d
    rw [hst] at hm
    simp only [List.mem_append] at hm
    rcases hm with hm | hm
    · exact hm
    · rcases hnew _ hm with hc | hc | ⟨r, _, hc⟩ | hc <;> cases hc

/-- The child spans named `t` added by one iteration that goes on. -/
theorem step_childStartsNamed (p : Platform) (s s1 : State) (e : TestEvent) (t : String)
    (ht : t ≠ "") (hs : Inv s) (h : step p s e = StepResult.next s1) :
    childStartsNamed t s1.calls =
      childStartsNamed t s.calls + (if e.Test = t ∧ e.Action = "run" then 1 else 0) := by
  rcases step_cases p s e with ⟨hc, h1⟩ | ⟨_, _, _, h1⟩ | ⟨_, ha, h1⟩ | ⟨d, _, ha, h1⟩ |
    ⟨d, msg, _, ha, h1⟩ | ⟨d, _, _, ha, _, h1⟩
  · rw [h1] at h; cases h
    have : ¬ (e.Test = t ∧ e.Action = "run") := by
      rintro ⟨h2, h3⟩
      rcases hc with hc | hc
      · exact ht (h2 ▸ hc)
      · exact hc.1 h3
    simp [this]
  · rw [h1] at h; cases h
  · rw [h1] at h; cases h
    have hcl : (stepRun p s e).calls = (ensureOuter s e).calls ++
        [Call.Start (ensureOuter s e).nextSpan (ensureOuter s e).ctx e.Test e.Time
          (childAttrs p e)] := rfl
    rw [hcl, childStartsNamed_append]
    rcases ensureOuter_cases s e with ⟨r, hr0, h2⟩ | ⟨hn, h2⟩
    · rw [h2]
      have hctx : s.ctx = some r := by rw [hs.ctx_eq, hr0]
      by_cases hte : e.Test = t
      · simp [childStartsNamed, childStarts, hctx, hte, ha]
      · simp [childStartsNamed, childStarts, hctx, hte]
    · rw [h2]
      have hctx : s.ctx = none := by rw [hs.ctx_eq, hn]
      simp only [childStartsNamed_append]
      by_cases hte : e.Test = t
      · simp [childStartsNamed, childStarts, hctx, hte, ha]
      · simp [childStartsNamed, childStarts, hctx, hte]
  · rw [h1] at h; cases h
    simp [childStartsNamed_append, childStartsNamed, childStarts, ha]
  · rw [h1] at h; cases h
    have : e.Action ≠ "run" := by
      rcases ha with ⟨ha | ha, _⟩ | ⟨ha, _⟩ <;> simp [ha]
    simp [childStartsNamed_append, childStartsNamed, childStarts, this]
  · obtain ⟨new, hst, hnew⟩ := stepPassFail_state p s e d
    rw [← h1, h] at hst
    simp only [StepResult.state] at hst
    rw [hst]
    have hnil : childStartsNamed t new = 0 := by
      have : childStarts new = [] := by
        simp only [childStarts, List.filterMap_eq_nil_iff]
        intro c hc
        rcases hnew c hc with hc | hc | ⟨r, _, hc⟩ | hc <;> simp [hc]
      simp [childStartsNamed, this]
    simp [childStartsNamed_append, hnil, ha]

theorem childStartsNamed_loop (p : Platform) (t : String) (ht : t ≠ "") :
    ∀ (evs : List TestEvent) (s : State), Inv s →
      (loop p s (evs.map Except.ok)).2 = Outcome.ok →
      childStartsNamed t (loop p s (evs.map Except.ok)).1.calls =
        childStartsNamed t s.calls + runsOf t evs := by
  intro evs
  induction evs with
  | nil => intro s _ _; simp [loop, runsOf]
  | cons e rest ih =>
    intro s hs hok
    cases hst : step p s e with
    | panicked s1 => simp [loop, hst] at hok
    | next s1 =>
      have hs1 : Inv s1 := by
        have := inv_step p s e hs
        rwa [hst] at this
      simp only [List.map_cons, loop, hst] at hok ⊢
      rw [ih s1 hs1 hok, step_childStartsNamed p s s1 e t ht hs hst]
      by_cases hc : e.Test = t ∧ e.Action = "run"
      · simp [runsOf, List.filter_cons, hc]
        omega
      · simp [runsOf, List.filter_cons, hc]

/-! ### C7 -/

/-- C7: for a stream of events processed to its end and a non-empty test identifier `t`,
the number of child spans started with name `t` is the number of `run` events for `t`;
in every state an event whose action is not `run` adds no `Start` call; and after every
input the registry holds at most one record for `t`. -/
theorem C7_one_span_per_run (p : Platform) (evs : List TestEvent) (t : String)
    (ht : t ≠ "") (hok : (runEvents p evs).2 = Outcome.ok) :
    childStartsNamed t (Main p none (evs.map Except.ok)).1 = runsOf t evs ∧
    (∀ (s : State) (e : TestEvent), e.Action ≠ "run" →
      ∀ h par n ts a, Call.Start h par n ts a ∈ (step p s e).state.calls →
        Call.Start h par n ts a ∈ s.calls) ∧
    (∀ input : List (Except String TestEvent), recordsOf t (loop p init input).1.spans ≤ 1) := by
  refine ⟨?_, fun s e ha h par n ts a hm => step_no_start p s e ha h par n ts a hm,
    fun input => recordsOf_loop p input t⟩
  rw [Main_calls_eq, childStartsNamed_append]
  have h1 := childStartsNamed_loop p t ht evs init inv_init hok
  rw [h1]
  have h2 : childStartsNamed t
      ((match (loop p init (evs.map Except.ok)).1.outerSpan with
        | none => []
        | some r => [Call.End r (some (loop p init (evs.map Except.ok)).1.lastEndTime)]) ++
        [Call.Shutdown]) = 0 := by
    cases (loop p init (evs.map Except.ok)).1.outerSpan <;>
      simp [childStartsNamed, childStarts]
  rw [h2]
  simp [init, childStartsNamed, childStarts]

/-- C7 on the events `run A`, `run A`, `pass A`: two child spans named A are started. -/
theorem C7_one_span_per_run_witness :
    "A" ≠ "" ∧ (runEvents amd64 runTwice).2 = Outcome.ok ∧
    childStartsNamed "A" (Main amd64 none (runTwice.map Except.ok)).1 = 2 :=
  ⟨by decide, by decide,
   (C7_one_span_per_run amd64 runTwice "A" (by decide) (by decide)).1.trans (by decide)⟩

/-! ### C8 -/

/-- C8, the code at the failing input: on the stream of the single event `pass A`, with no
registry record for A, the nil record is dereferenced and `Main` panics; no error is
returned, and the only call made is the deferred shutdown. -/
theorem C8_missing_record_panics :
    lookup init.spans "A" = none ∧
    step amd64 init ⟨100, "pass", "pkg", "A", ⟨false, 0, 0⟩, ""⟩ = StepResult.panicked init ∧
    Main amd64 none passUnregistered = ([Call.Shutdown], Outcome.panicked) := by
  refine ⟨by decide, by decide, ?_⟩
  simp [Main, passUnregistered, mkEvent, loop, step, init, lookup, runDefers, runDeferred]

/-! ### C9 -/

/-- C9: in every run that started an outer span `r`, however the run ends (end of input,
decode error or panic), the calls are those of the loop followed by exactly one `End` of
`r`, carrying the value the running maximum has at that moment, and the shutdown; the
loop itself never ends `r`; and exactly one closing action is registered, whatever
`run` events came later. -/
theorem C9_root_ended_once (p : Platform) (input : List (Except String TestEvent)) (r : Nat)
    (hr : r ∈ rootSpans (Main p none input).1) :
    (Main p none input).1 = (loop p init input).1.calls ++
      [Call.End r (some (loop p init input).1.lastEndTime), Call.Shutdown] ∧
    (∀ ts, Call.End r ts ∉ (loop p init input).1.calls) ∧
    endCalls r (Main p none input).1 = [some (loop p init input).1.lastEndTime] ∧
    (loop p init input).1.defers = [Deferred.endOuter, Deferred.shutdown] := by
  obtain ⟨hinv, hlog⟩ := invs_loop p input
  have hend := endCalls_Main p input r hr
  rw [Main_calls_eq] at hr hend ⊢
  cases ho : (loop p init input).1.outerSpan with
  | none =>
    simp only [ho, rootSpans_append, hlog.roots] at hr
    simp [rootSpans] at hr
  | some r0 =>
    simp only [ho, rootSpans_append, hlog.roots] at hr
    have hr0 : r = r0 := by simpa [rootSpans] using hr
    subst hr0
    simp only [ho] at hend
    refine ⟨by simp, ?_, hend, ?_⟩
    · intro ts hm
      obtain ⟨r1, hr1, hlt⟩ := hlog.ends_gt r ts hm
      rw [ho] at hr1
      cases hr1
      omega
    · rw [hinv.defers_eq, ho]
      simp

/-- C9 on a run aborted by a malformed record after `run A`: the outer span is ended
once, after the calls of the loop. -/
theorem C9_root_ended_once_witness :
    0 ∈ rootSpans (Main amd64 none runThenMalformed).1 ∧
    (Main amd64 none runThenMalformed).2 = Outcome.decodeErr "invalid character" ∧
    endCalls 0 (Main amd64 none runThenMalformed).1 =
      [some (loop amd64 init runThenMalformed).1.lastEndTime] :=
  ⟨by decide, by decide, (C9_root_ended_once amd64 runThenMalformed 0 (by decide)).2.2.1⟩

/-! ### The loop on a stream in two parts -/

theorem decoded_map_ok (evs : List TestEvent) : decoded (evs.map Except.ok) = evs := by
  induction evs with
  | nil => rfl
  | cons e rest ih => simp [decoded, ih]

theorem loop_events_outcome (p : Platform) :
    ∀ (evs : List TestEvent) (s : State),
      (loop p s (evs.map Except.ok)).2 = Outcome.ok ∨
      (loop p s (evs.map Except.ok)).2 = Outcome.panicked := by
  intro evs
  induction evs with
  | nil => intro s; left; rfl
  | cons e rest ih =>
    intro s
    simp only [List.map_cons, loop]
    cases step p s e with
    | next s1 => exact ih s1
    | panicked s1 => right; rfl

/-- When the first part is processed to its end the loop goes on with the second part. -/
theorem loop_append (p : Platform) :
    ∀ (a : List TestEvent) (s : State) (b : List (Except String TestEvent)),
      (loop p s (a.map Except.ok)).2 = Outcome.ok →
      loop p s (a.map Except.ok ++ b) = loop p (loop p s (a.map Except.ok)).1 b := by
  intro a
  induction a with
  | nil => intro s b _; rfl
  | cons e rest ih =>
    intro s b hok
    simp only [List.map_cons, List.cons_append, loop] at hok ⊢
    cases hst : step p s e with
    | next s1 =>
      simp only [hst] at hok ⊢
      exact ih s1 b hok
    | panicked s1 => simp [hst] at hok

/-- When the first part panics nothing of the second part is read. -/
theorem loop_append_panicked (p : Platform) :
    ∀ (a : List TestEvent) (s : State) (b : List (Except String TestEvent)),
      (loop p s (a.map Except.ok)).2 = Outcome.panicked →
      loop p s (a.map Except.ok ++ b) = loop p s (a.map Except.ok) := by
  intro a
  induction a with
  | nil => intro s b h; simp [loop] at h
  | cons e rest ih =>
    intro s b hp
    simp only [List.map_cons, List.cons_append, loop] at hp ⊢
    cases hst : step p s e with
    | next s1 =>
      simp only [hst] at hp ⊢
      exact ih s1 b hp
    | panicked s1 => rfl

theorem step_calls_extend (p : Platform) (s : State) (e : TestEvent) :
    ∃ new, (step p s e).state.calls = s.calls ++ new := by
  rcases step_cases p s e with ⟨_, h1⟩ | ⟨_, _, _, h1⟩ | ⟨_, _, h1⟩ | ⟨d, _, _, h1⟩ |
    ⟨d, msg, _, _, h1⟩ | ⟨d, _, _, _, _, h1⟩
  · exact ⟨[], by rw [h1]; simp [StepResult.state]⟩
  · exact ⟨[], by rw [h1]; simp [StepResult.state]⟩
  · rw [h1]
    rcases ensureOuter_cases s e with ⟨r, _, h2⟩ | ⟨_, h2⟩
    · exact ⟨[Call.Start s.nextSpan s.ctx e.Test e.Time (childAttrs p e)], by
        simp only [StepResult.state, stepRun, h2]⟩
    · refine ⟨[Call.Start s.nextSpan s.ctx "test2json" e.Time [],
        Call.SetStatus s.nextSpan Code.Ok,
        Call.Start (s.nextSpan + 1) (some s.nextSpan) e.Test e.Time (childAttrs p e)], ?_⟩
      simp [StepResult.state, stepRun, h2]
  · exact ⟨[Call.End d.Span none], by rw [h1]; rfl⟩
  · exact ⟨[Call.AddEvent d.Span msg e.Time], by rw [h1]; rfl⟩
  · rw [h1]
    obtain ⟨new, hst, _⟩ := stepPassFail_state p s e d
    exact ⟨new, by rw [hst]⟩

theorem loop_calls_extend (p : Platform) (items : List (Except String TestEvent)) (s : State) :
    ∃ tail, (loop p s items).1.calls = s.calls ++ tail :=
  loop_induct (P := fun s' => ∃ tail, s'.calls = s.calls ++ tail) p
    (fun s' e ⟨tail, ht⟩ => by
      obtain ⟨new, hn⟩ := step_calls_extend p s' e
      exact ⟨tail ++ new, by rw [hn, ht, List.append_assoc]⟩)
    items s ⟨[], by simp⟩

/-- Before any `run` of a named test nothing changes. -/
theorem step_before_run (p : Platform) (s : State) (e : TestEvent) (hs : Inv s)
    (hn : s.outerSpan = none) (he : isNamedRun e = false) : (step p s e).state = s := by
  rcases step_cases p s e with ⟨_, h1⟩ | ⟨_, _, _, h1⟩ | ⟨ht, ha, _⟩ | ⟨d, hd, _, _⟩ |
    ⟨d, msg, hd, _, _⟩ | ⟨d, hd, _, _, _, _⟩
  · rw [h1]; rfl
  · rw [h1]; rfl
  · simp [isNamedRun, ht, ha] at he
  · rw [lookup_none_of_outer_none s hs hn] at hd; cases hd
  · rw [lookup_none_of_outer_none s hs hn] at hd; cases hd
  · rw [lookup_none_of_outer_none s hs hn] at hd; cases hd

theorem loop_before_run (p : Platform) :
    ∀ (items : List (Except String TestEvent)) (s : State), Inv s → s.outerSpan = none →
      (∀ x ∈ decoded items, isNamedRun x = false) → (loop p s items).1 = s := by
  intro items
  induction items with
  | nil => intro s _ _ _; rfl
  | cons it rest ih =>
    intro s hs hn hall
    cases it with
    | error err => rfl
    | ok e =>
      have he : isNamedRun e = false := hall e (by simp [decoded])
      have hst := step_before_run p s e hs hn he
      cases hr : step p s e with
      | next s1 =>
        rw [hr] at hst
        simp only [StepResult.state] at hst
        subst hst
        simp only [loop, hr]
        exact ih s1 hs hn (fun x hx => hall x (by simp [decoded, hx]))
      | panicked s1 =>
        rw [hr] at hst
        simp only [loop, hr]
        exact hst

theorem rootSpans_Main (p : Platform) (input : List (Except String TestEvent)) :
    rootSpans (Main p none input).1 = (loop p init input).1.outerSpan.toList := by
  obtain ⟨_, hlog⟩ := invs_loop p input
  rw [Main_calls_eq, rootSpans_append, hlog.roots]
  cases (loop p init input).1.outerSpan <;> simp [rootSpans]

/-- The calls of a run begin with the start of the outer span and of the first child
span, made for the first `run` event of a named test. -/
theorem first_run_calls (p : Platform) (input : List (Except String TestEvent))
    (pre : List TestEvent) (e : TestEvent) (rest : List (Except String TestEvent))
    (hin : input = pre.map Except.ok ++ Except.ok e :: rest)
    (hpre : ∀ x ∈ pre, isNamedRun x = false) (he : isNamedRun e = true)
    (hok : (runEvents p pre).2 = Outcome.ok) :
    (runEvents p pre).1.calls = [] ∧
    ∃ tail, (Main p none input).1 =
        Call.Start 0 none "test2json" e.Time [] :: Call.SetStatus 0 Code.Ok ::
          Call.Start 1 (some 0) e.Test e.Time (childAttrs p e) :: tail ∧
      rootSpans tail = [] := by
  have hroots := rootSpans_Main p input
  have hpre' : ∀ x ∈ decoded (pre.map Except.ok), isNamedRun x = false := by
    rw [decoded_map_ok]; exact hpre
  have hst : (runEvents p pre).1 = init :=
    loop_before_run p (pre.map Except.ok) init inv_init rfl hpre'
  refine ⟨by rw [hst]; rfl, ?_⟩
  have hloop : loop p init input = loop p (stepRun p init e) rest := by
    rw [hin, loop_append p pre init _ hok]
    have : (loop p init (pre.map Except.ok)).1 = init := hst
    rw [this]
    simp only [isNamedRun, Bool.and_eq_true, decide_eq_true_eq] at he
    simp [loop, step, he.1, he.2]
  obtain ⟨tail, htail⟩ := loop_calls_extend p rest (stepRun p init e)
  have hcalls : (stepRun p init e).calls =
      [Call.Start 0 none "test2json" e.Time [], Call.SetStatus 0 Code.Ok,
       Call.Start 1 (some 0) e.Test e.Time (childAttrs p e)] := by
    simp [stepRun, ensureOuter, init]
  have hmain : (Main p none input).1 =
      Call.Start 0 none "test2json" e.Time [] :: Call.SetStatus 0 Code.Ok ::
        Call.Start 1 (some 0) e.Test e.Time (childAttrs p e) ::
          (tail ++ runDefers (loop p init input).1) := by
    rw [Main_calls, hloop, htail, hcalls]
    simp
  refine ⟨_, hmain, ?_⟩
  have hlen : (rootSpans (Main p none input).1).length ≤ 1 := by
    rw [hroots]
    cases (loop p init input).1.outerSpan <;> simp
  rw [hmain] at hlen
  have hcons : rootSpans (Call.Start 0 none "test2json" e.Time [] :: Call.SetStatus 0 Code.Ok ::
        Call.Start 1 (some 0) e.Test e.Time (childAttrs p e) ::
          (tail ++ runDefers (loop p init input).1)) =
      0 :: rootSpans (tail ++ runDefers (loop p init input).1) := by
    simp [rootSpans]
  rw [hcons] at hlen
  simp only [List.length_cons] at hlen
  exact List.length_eq_zero.mp (by omega)

/-! ### C10 -/

/-- C10: in every run (1) at most one span is started without a parent; (2) every span
started with a parent has the outer span as its parent; (3) when the events `pre` hold
no `run` of a named test and are processed to their end, they make no call, and the
first `run` event `e` of a named test makes the calls of the run begin with the start of
the outer span at the timestamp of `e`, its status success, and the start of the child
span of `e` below it, after which no span is started without a parent; (4) when no `run`
event of a named test is read, no span is started at all. -/
theorem C10_root_started_once (p : Platform) (input : List (Except String TestEvent)) :
    (rootSpans (Main p none input).1).length ≤ 1 ∧
    (∀ h par n ts a, Call.Start h (some par) n ts a ∈ (Main p none input).1 →
      par ∈ rootSpans (Main p none input).1) ∧
    (∀ (pre : List TestEvent) (e : TestEvent) (rest : List (Except String TestEvent)),
      input = pre.map Except.ok ++ Except.ok e :: rest →
      (∀ x ∈ pre, isNamedRun x = false) → isNamedRun e = true →
      (runEvents p pre).2 = Outcome.ok →
      (runEvents p pre).1.calls = [] ∧
      ∃ tail, (Main p none input).1 =
          Call.Start 0 none "test2json" e.Time [] :: Call.SetStatus 0 Code.Ok ::
            Call.Start 1 (some 0) e.Test e.Time (childAttrs p e) :: tail ∧
        rootSpans tail = []) ∧
    ((∀ x ∈ decoded input, isNamedRun x = false) →
      rootSpans (Main p none input).1 = [] ∧ childStarts (Main p none input).1 = []) := by
  obtain ⟨hinv, hlog⟩ := invs_loop p input
  have hroots := rootSpans_Main p input
  refine ⟨?_, ?_, ?_, ?_⟩
  · rw [hroots]
    cases (loop p init input).1.outerSpan <;> simp
  · intro h par n ts a hm
    rw [hroots]
    rw [Main_calls_eq] at hm
    simp only [List.mem_append] at hm
    rcases hm with hm | hm | hm
    · rw [(hlog.child_parent h par n ts a hm).1]
      simp
    · cases ho : (loop p init input).1.outerSpan with
      | none => simp [ho] at hm
      | some r => simp [ho] at hm
    · simp at hm
  · intro pre e rest hin hpre he hok
    exact first_run_calls p input pre e rest hin hpre he hok
  · intro hall
    have hst : (loop p init input).1 = init := loop_before_run p input init inv_init rfl hall
    rw [Main_calls_eq, hst]
    simp [init, rootSpans, childStarts]

/-- C10 on the stream `output` without test identifier, `run A@100`, `pause A`: the outer
span is started by `run A`, at its timestamp. -/
theorem C10_root_started_once_witness :
    ∃ tail, (Main amd64 none outputThenRun).1 =
      Call.Start 0 none "test2json" 100 [] :: Call.SetStatus 0 Code.Ok ::
        Call.Start 1 (some 0) "A" 100
          (childAttrs amd64 ⟨100, "run", "pkg", "A", ⟨false, 0, 0⟩, ""⟩) :: tail ∧
      rootSpans tail = [] :=
  ((C10_root_started_once amd64 outputThenRun).2.2.1
    [⟨50, "output", "pkg", "", ⟨false, 0, 0⟩, "ok"⟩]
    ⟨100, "run", "pkg", "A", ⟨false, 0, 0⟩, ""⟩
    [mkEvent 200 "pause" "A" ⟨false, 0, 0⟩] rfl (by decide) (by decide) (by decide)).2

/-! ### C11 -/

theorem inv_stateAfter (p : Platform) (input : List (Except String TestEvent)) :
    Inv (stateAfter p input) :=
  inv_loop p input

/-- Scenario 3 with the times kept abstract. -/
theorem scenario3_of (p : Platform) (T0 T1 : Int) :
    loop p init [mkEvent T0 "run" "A" ⟨false, 0, 0⟩, mkEvent T1 "skip" "A" ⟨false, 0, 0⟩] =
      ({ ctx := some 0, spans := [], outerSpan := some 0, lastEndTime := 0,
         defers := [Deferred.endOuter, Deferred.shutdown], nextSpan := 2,
         calls :=
          [Call.Start 0 none "test2json" T0 [],
           Call.SetStatus 0 Code.Ok,
           Call.Start 1 (some 0) "A" T0
             [("code.namespace", "pkg"), ("code.function", "A"), ("host.arch", p.GOARCH),
              ("os.name", p.GOOS)],
           Call.End 1 none] }, Outcome.ok) := by
  simp [mkEvent, loop, step, stepRun, ensureOuter, init, insert, delete, lookup, childAttrs]

/-- C11: in the state in which the loop leaves off on any input, with the registry
holding the record `d` for the test of a `skip` event `e`: (1) the iteration goes on
after the single call `End` on `d.Span` without a timestamp, and changes nothing but the
call log and the registry; (2) afterwards the registry has no record for the test of `e`
and the records of all other tests as before; (3) neither the timestamp nor the elapsed
value of `e` has any influence; (4) in Scenario 3 the span of A is ended without a
timestamp, the registry is left empty, and the run ends the outer span at the zero time. -/
theorem C11_skip_ends_and_removes (p : Platform) (input : List (Except String TestEvent))
    (e : TestEvent) (d : spanDetails)
    (hd : lookup (stateAfter p input).spans e.Test = some d) (ha : e.Action = "skip") :
    step p (stateAfter p input) e = StepResult.next
      { stateAfter p input with
        calls := (stateAfter p input).calls ++ [Call.End d.Span none]
        spans := delete (stateAfter p input).spans e.Test } ∧
    (∀ t, lookup (delete (stateAfter p input).spans e.Test) t =
      if t = e.Test then none else lookup (stateAfter p input).spans t) ∧
    (∀ (tm : Int) (el : Float64),
      step p (stateAfter p input) { e with Time := tm, Elapsed := el } =
        step p (stateAfter p input) e) ∧
    (∀ T0 : Int,
      (stateAfter p (scenario3 T0)).spans = [] ∧
      Main p none (scenario3 T0) =
        ([Call.Start 0 none "test2json" T0 [],
          Call.SetStatus 0 Code.Ok,
          Call.Start 1 (some 0) "A" T0
            [("code.namespace", "pkg"), ("code.function", "A"), ("host.arch", p.GOARCH),
             ("os.name", p.GOOS)],
          Call.End 1 none,
          Call.End 0 (some 0),
          Call.Shutdown], Outcome.ok)) := by
  have hne : e.Test ≠ "" := (inv_stateAfter p input).spans_ne e.Test d (lookup_mem hd)
  refine ⟨?_, fun t => lookup_delete _ _ t, ?_, ?_⟩
  · simp [step, hne, ha, hd]
  · intro tm el
    simp [step, hne, ha, hd]
  · intro T0
    have h := scenario3_of p T0 (T0 + 100000000)
    constructor
    · simp only [stateAfter, scenario3, h]
    · simp only [Main, scenario3, h]
      simp [runDefers, runDeferred]

/-- C11 on a `skip A` event in the state after `run A@100`. -/
theorem C11_skip_ends_and_removes_witness :
    lookup (stateAfter amd64 [mkEvent 100 "run" "A" ⟨false, 0, 0⟩]).spans "A" = some ⟨1, 100⟩ ∧
    (∀ t, lookup (delete (stateAfter amd64 [mkEvent 100 "run" "A" ⟨false, 0, 0⟩]).spans "A") t =
      if t = "A" then none
      else lookup (stateAfter amd64 [mkEvent 100 "run" "A" ⟨false, 0, 0⟩]).spans t) :=
  ⟨by decide,
   (C11_skip_ends_and_removes amd64 [mkEvent 100 "run" "A" ⟨false, 0, 0⟩]
    ⟨200, "skip", "pkg", "A", ⟨false, 0, 0⟩, ""⟩ ⟨1, 100⟩ (by decide) rfl).2.1⟩

/-! ### C12 -/

/-- Scenario 3 followed by `pass A`, with the times and the elapsed value abstract. -/
theorem scenario3ThenPass_of (p : Platform) (T0 T1 T : Int) (el : Float64) :
    Main p none
      [mkEvent T0 "run" "A" ⟨false, 0, 0⟩, mkEvent T1 "skip" "A" ⟨false, 0, 0⟩,
       mkEvent T "pass" "A" el] =
      ([Call.Start 0 none "test2json" T0 [],
        Call.SetStatus 0 Code.Ok,
        Call.Start 1 (some 0) "A" T0
          [("code.namespace", "pkg"), ("code.function", "A"), ("host.arch", p.GOARCH),
           ("os.name", p.GOOS)],
        Call.End 1 none,
        Call.End 0 (some 0),
        Call.Shutdown], Outcome.panicked) := by
  simp [Main, mkEvent, loop, step, stepRun, ensureOuter, init, insert, delete, lookup,
    childAttrs, runDefers, runDeferred]

/-- Scenario 3 followed by `run A` and `pass A`, with the times and the elapsed value
abstract. -/
theorem scenario3ThenRunPass_of (p : Platform) (T0 T1 T2 T3 : Int) (el : Float64) :
    Main p none
      [mkEvent T0 "run" "A" ⟨false, 0, 0⟩, mkEvent T1 "skip" "A" ⟨false, 0, 0⟩,
       mkEvent T2 "run" "A" ⟨false, 0, 0⟩, mkEvent T3 "pass" "A" el] =
      ([Call.Start 0 none "test2json" T0 [],
        Call.SetStatus 0 Code.Ok,
        Call.Start 1 (some 0) "A" T0
          [("code.namespace", "pkg"), ("code.function", "A"), ("host.arch", p.GOARCH),
           ("os.name", p.GOOS)],
        Call.End 1 none,
        Call.Start 2 (some 0) "A" T2
          [("code.namespace", "pkg"), ("code.function", "A"), ("host.arch", p.GOARCH),
           ("os.name", p.GOOS)],
        Call.SetStatus 2 Code.Ok,
        Call.End 2 (some (T2 + toDuration p el)),
        Call.End 0 (some (max 0 (T2 + toDuration p el))),
        Call.Shutdown], Outcome.ok) := by
  by_cases h : 0 < T2 + toDuration p el
  · simp [Main, mkEvent, loop, step, stepRun, ensureOuter, init, insert, delete, lookup,
      stepPassFail, childAttrs, runDefers, runDeferred, h, max_eq_right (le_of_lt h)]
  · simp [Main, mkEvent, loop, step, stepRun, ensureOuter, init, insert, delete, lookup,
      stepPassFail, childAttrs, runDefers, runDeferred, h, max_eq_left (not_lt.mp h)]

/-- C12, as stated, fails: after Scenario 3 at 2021-01-01T00:00:00Z a `pass A` event
starts no span (the only child span is the skipped one) and the run does not go on: it
panics on the absent registry record. -/
theorem C12_counterexample :
    childStarts (Main amd64 none (scenario3ThenPass t2021 (t2021 + 100000000) ⟨false, 1, 0⟩)).1 =
      [(1, "A")] ∧
    (Main amd64 none (scenario3ThenPass t2021 (t2021 + 100000000) ⟨false, 1, 0⟩)).2 =
      Outcome.panicked := by
  have h := scenario3ThenPass_of amd64 t2021 (t2021 + 100000000) (t2021 + 100000000)
    ⟨false, 1, 0⟩
  have hin : scenario3ThenPass t2021 (t2021 + 100000000) ⟨false, 1, 0⟩ =
      [mkEvent t2021 "run" "A" ⟨false, 0, 0⟩,
       mkEvent (t2021 + 100000000) "skip" "A" ⟨false, 0, 0⟩,
       mkEvent (t2021 + 100000000) "pass" "A" ⟨false, 1, 0⟩] := rfl
  rw [hin, h]
  simp [childStarts]

/-- C12, amended: after Scenario 3 a subsequent `run A` event starts a new span for A,
with a handle distinct from that of the skipped span, and processing goes on: a `pass A`
that follows sets the status of the new span and ends it at the timestamp of the second
`run` plus the duration, and the run reaches the end of the stream; a `pass A` event
directly after Scenario 3 starts no span. -/
theorem C12_rerun_after_skip (p : Platform) (T0 T1 T2 : Int) (el : Float64) :
    Main p none (scenario3ThenRunPass T0 T1 T2 el) =
      ([Call.Start 0 none "test2json" T0 [],
        Call.SetStatus 0 Code.Ok,
        Call.Start 1 (some 0) "A" T0
          [("code.namespace", "pkg"), ("code.function", "A"), ("host.arch", p.GOARCH),
           ("os.name", p.GOOS)],
        Call.End 1 none,
        Call.Start 2 (some 0) "A" T1
          [("code.namespace", "pkg"), ("code.function", "A"), ("host.arch", p.GOARCH),
           ("os.name", p.GOOS)],
        Call.SetStatus 2 Code.Ok,
        Call.End 2 (some (T1 + toDuration p el)),
        Call.End 0 (some (max 0 (T1 + toDuration p el))),
        Call.Shutdown], Outcome.ok) ∧
    childStarts (Main p none (scenario3ThenPass T0 T1 el)).1 = [(1, "A")] := by
  constructor
  · exact scenario3ThenRunPass_of p T0 (T0 + 100000000) T1 T2 el
  · have h := scenario3ThenPass_of p T0 (T0 + 100000000) T1 el
    have hin : scenario3ThenPass T0 T1 el =
        [mkEvent T0 "run" "A" ⟨false, 0, 0⟩,
         mkEvent (T0 + 100000000) "skip" "A" ⟨false, 0, 0⟩,
         mkEvent T1 "pass" "A" el] := rfl
    rw [hin, h]
    simp [childStarts]

/-! ### The outcome does not depend on the tests failing -/

theorem step_sameCourse (p : Platform) (s s1 : State) (e : TestEvent)
    (h : sameCourse s s1) (hf : e.Action ≠ "fail") :
    sameResult (step p s e) (step p s1 e) := by
  obtain ⟨ctx, spans, outer, last, defers, nxt, calls⟩ := s
  obtain ⟨ctx1, spans1, outer1, last1, defers1, nxt1, calls1⟩ := s1
  simp only [sameCourse] at h
  obtain ⟨rfl, rfl, rfl, rfl⟩ := h
  by_cases h0 : e.Test = ""
  · simp [step, h0, sameResult, sameCourse]
  by_cases h1 : e.Action = "run"
  · cases outer <;> simp [step, h0, h1, sameResult, sameCourse, stepRun, ensureOuter]
  by_cases h2 : e.Action = "skip"
  · cases hl : lookup spans e.Test <;> simp [step, h0, h2, hl, sameResult, sameCourse]
  by_cases h3 : e.Action = "pause" ∨ e.Action = "cont"
  · cases hl : lookup spans e.Test <;> simp [step, h0, h1, h2, h3, hl, sameResult, sameCourse]
  by_cases h4 : e.Action = "output"
  · cases hl : lookup spans e.Test <;> simp [step, h0, h4, hl, sameResult, sameCourse]
  by_cases h5 : e.Action = "pass"
  · cases hl : lookup spans e.Test with
    | none => simp [step, h0, h5, hl, sameResult]
    | some d =>
      simp only [step, h0, h5, hl, stepPassFail]
      simp only [String.reduceEq, if_true, if_false, or_true, or_false, false_or]
      split_ifs <;> simp [sameResult, sameCourse]
  · have h6 : ¬ (e.Action = "pass" ∨ e.Action = "fail") := by
      rintro (h | h)
      · exact h5 h
      · exact hf h
    simp [step, h0, h1, h2, h3, h4, h6, sameResult, sameCourse]

theorem step_fail_as_pass (p : Platform) (s : State) (e : TestEvent) (hs : Inv s)
    (hf : e.Action = "fail") :
    sameResult (step p s e) (step p s { e with Action := "pass" }) := by
  by_cases h0 : e.Test = ""
  · simp [step, h0, sameResult, sameCourse]
  cases hl : lookup s.spans e.Test with
  | none => simp [step, h0, hf, hl, sameResult]
  | some d =>
    obtain ⟨root, hroot, _⟩ := hs.spans_gt e.Test d (lookup_mem hl)
    have h1 : step p s e = stepPassFail p s e d := by
      simp [step, h0, hf, hl]
    have h2 : step p s { e with Action := "pass" } =
        stepPassFail p s { e with Action := "pass" } d := by
      simp [step, h0, hl]
    rw [h1, h2, stepPassFail_eq p s e d root hroot,
      stepPassFail_eq p s { e with Action := "pass" } d root hroot]
    simp [sameResult, sameCourse]

theorem sameResult_trans (a b c : StepResult) (h1 : sameResult a b) (h2 : sameResult b c) :
    sameResult a c := by
  cases a <;> cases b <;> cases c <;> simp only [sameResult] at h1 h2 ⊢
  exact ⟨h1.1.trans h2.1, h1.2.1.trans h2.2.1, h1.2.2.1.trans h2.2.2.1,
    h1.2.2.2.trans h2.2.2.2⟩

theorem step_passify (p : Platform) (s s1 : State) (e : TestEvent) (hs : Inv s)
    (h : sameCourse s s1) : sameResult (step p s e) (step p s1 (passify e)) := by
  by_cases hf : e.Action = "fail"
  · have hp : passify e = { e with Action := "pass" } := by simp [passify, hf]
    rw [hp]
    exact sameResult_trans _ _ _ (step_fail_as_pass p s e hs hf)
      (step_sameCourse p s s1 { e with Action := "pass" } h (by simp))
  · have hp : passify e = e := by simp [passify, hf]
    rw [hp]
    exact step_sameCourse p s s1 e h hf

theorem loop_passify (p : Platform) :
    ∀ (evs : List TestEvent) (s s1 : State), Inv s → sameCourse s s1 →
      (loop p s (evs.map Except.ok)).2 = (loop p s1 ((evs.map passify).map Except.ok)).2 := by
  intro evs
  induction evs with
  | nil => intro s s1 _ _; rfl
  | cons e rest ih =>
    intro s s1 hs h
    have hstep := step_passify p s s1 e hs h
    have hinv := inv_step p s e hs
    simp only [List.map_cons, loop]
    cases hr : step p s e with
    | next t =>
      cases hr1 : step p s1 (passify e) with
      | next t1 =>
        rw [hr, hr1] at hstep
        rw [hr] at hinv
        exact ih t t1 hinv hstep
      | panicked t1 =>
        rw [hr, hr1] at hstep
        exact absurd hstep (by simp [sameResult])
    | panicked t =>
      cases hr1 : step p s1 (passify e) with
      | next t1 =>
        rw [hr, hr1] at hstep
        exact absurd hstep (by simp [sameResult])
      | panicked t1 => rfl

/-! ### Decode errors -/

/-- What the code does on a malformed record and on streams without one: (1) when the
record after the events `pre` is malformed, the calls of the run are those of the run on
`pre` alone, whatever records follow, and the run returns that decode error if the run on
`pre` reaches its end, and has panicked otherwise; (2) a run on records none of which is
malformed ends at the end of the input or in a panic, and it ends the same way when
every `fail` of the stream is turned into a `pass`. -/
theorem decode_error_after_prefix (p : Platform) :
    (∀ (pre : List TestEvent) (err : String) (rest : List (Except String TestEvent)),
      Main p none (pre.map Except.ok ++ Except.error err :: rest) =
        ((Main p none (pre.map Except.ok)).1,
         if (Main p none (pre.map Except.ok)).2 = Outcome.ok then Outcome.decodeErr err
         else Outcome.panicked)) ∧
    (∀ evs : List TestEvent,
      ((Main p none (evs.map Except.ok)).2 = Outcome.ok ∨
        (Main p none (evs.map Except.ok)).2 = Outcome.panicked) ∧
      (Main p none (evs.map Except.ok)).2 =
        (Main p none ((evs.map passify).map Except.ok)).2) := by
  constructor
  · intro pre err rest
    rcases loop_events_outcome p pre init with hok | hp
    · have h1 := loop_append p pre init (Except.error err :: rest) hok
      have h2 : loop p (loop p init (pre.map Except.ok)).1 (Except.error err :: rest) =
          ((loop p init (pre.map Except.ok)).1, Outcome.decodeErr err) := rfl
      simp only [Main, h1, h2, hok, if_true]
    · have h1 := loop_append_panicked p pre init (Except.error err :: rest) hp
      simp only [Main, h1, hp]
      simp
  · intro evs
    refine ⟨loop_events_outcome p evs init, ?_⟩
    exact loop_passify p evs init init inv_init ⟨rfl, rfl, rfl, rfl⟩

/-! ### C13 -/

/-- C13, the code at the failing inputs: on the stream `pass A` (no record for A), then a
malformed record, `Main` panics on the first event and never returns the decode error;
and on the stream of the single event `pass A`, which has no malformed record, `Main`
does not return success but panics. In both runs the only call is the deferred shutdown. -/
theorem C13_panic_instead_of_result :
    Main amd64 none passThenMalformed = ([Call.Shutdown], Outcome.panicked) ∧
    (Main amd64 none passThenMalformed).2 ≠ Outcome.decodeErr "invalid character" ∧
    Main amd64 none passUnregistered = ([Call.Shutdown], Outcome.panicked) ∧
    (Main amd64 none passUnregistered).2 ≠ Outcome.ok := by
  have h1 : Main amd64 none passThenMalformed = ([Call.Shutdown], Outcome.panicked) := by
    simp [Main, passThenMalformed, mkEvent, loop, step, init, lookup, runDefers, runDeferred]
  have h2 : Main amd64 none passUnregistered = ([Call.Shutdown], Outcome.panicked) := by
    simp [Main, passUnregistered, mkEvent, loop, step, init, lookup, runDefers, runDeferred]
  refine ⟨h1, ?_, h2, ?_⟩
  · rw [h1]
    simp
  · rw [h2]
    simp

/-! ### C14 -/

/-- C14: in the state in which the loop leaves off on any input, with the registry
holding the record `d` for the test of a `pass` or `fail` event `e`, the iteration goes
on to a state `s1` whose registry is the same list of records, so the record of the test
is still `d`; hence in `s1` a later `pause`, `cont` or `output` event of the same test
annotates `d.Span`, and a later `pass` or `fail` event is handled with the record `d`
again, ending `d.Span` at `d.start` plus its duration; whereas a `skip` event of that
test leaves no record for it. -/
theorem C14_pass_fail_keeps_record (p : Platform) (input : List (Except String TestEvent))
    (e : TestEvent) (d : spanDetails)
    (hd : lookup (stateAfter p input).spans e.Test = some d)
    (ha : e.Action = "pass" ∨ e.Action = "fail") :
    ∃ s1 root, step p (stateAfter p input) e = StepResult.next s1 ∧
      s1.spans = (stateAfter p input).spans ∧ lookup s1.spans e.Test = some d ∧
      s1.outerSpan = some root ∧
      (∀ e2 : TestEvent, e2.Test = e.Test → e2.Action = "pause" ∨ e2.Action = "cont" →
        step p s1 e2 = StepResult.next
          { s1 with calls := s1.calls ++ [Call.AddEvent d.Span e2.Action e2.Time] }) ∧
      (∀ e2 : TestEvent, e2.Test = e.Test → e2.Action = "output" →
        step p s1 e2 = StepResult.next
          { s1 with calls := s1.calls ++ [Call.AddEvent d.Span e2.Output e2.Time] }) ∧
      (∀ e2 : TestEvent, e2.Test = e.Test → e2.Action = "pass" ∨ e2.Action = "fail" →
        step p s1 e2 = StepResult.next
          { s1 with
            lastEndTime := max s1.lastEndTime (d.start + toDuration p e2.Elapsed)
            calls := s1.calls ++
              (if e2.Action = "pass" then
                [Call.SetStatus d.Span Code.Ok,
                 Call.End d.Span (some (d.start + toDuration p e2.Elapsed))]
               else
                [Call.SetStatus d.Span Code.Error, Call.SetStatus root Code.Error,
                 Call.End d.Span (some (d.start + toDuration p e2.Elapsed))]) }) ∧
      (∀ e3 : TestEvent, e3.Test = e.Test → e3.Action = "skip" →
        lookup (step p (stateAfter p input) e3).state.spans e.Test = none) := by
  have hinv := inv_stateAfter p input
  have hne : e.Test ≠ "" := hinv.spans_ne e.Test d (lookup_mem hd)
  obtain ⟨root, hroot, _⟩ := hinv.spans_gt e.Test d (lookup_mem hd)
  have hstep : step p (stateAfter p input) e = stepPassFail p (stateAfter p input) e d := by
    rcases ha with ha | ha <;> simp [step, hne, ha, hd]
  have key : ∀ s1 : State, lookup s1.spans e.Test = some d → s1.outerSpan = some root →
      (∀ e2 : TestEvent, e2.Test = e.Test → e2.Action = "pause" ∨ e2.Action = "cont" →
        step p s1 e2 = StepResult.next
          { s1 with calls := s1.calls ++ [Call.AddEvent d.Span e2.Action e2.Time] }) ∧
      (∀ e2 : TestEvent, e2.Test = e.Test → e2.Action = "output" →
        step p s1 e2 = StepResult.next
          { s1 with calls := s1.calls ++ [Call.AddEvent d.Span e2.Output e2.Time] }) ∧
      (∀ e2 : TestEvent, e2.Test = e.Test → e2.Action = "pass" ∨ e2.Action = "fail" →
        step p s1 e2 = StepResult.next
          { s1 with
            lastEndTime := max s1.lastEndTime (d.start + toDuration p e2.Elapsed)
            calls := s1.calls ++
              (if e2.Action = "pass" then
                [Call.SetStatus d.Span Code.Ok,
                 Call.End d.Span (some (d.start + toDuration p e2.Elapsed))]
               else
                [Call.SetStatus d.Span Code.Error, Call.SetStatus root Code.Error,
                 Call.End d.Span (some (d.start + toDuration p e2.Elapsed))]) }) := by
    intro s1 hl ho
    refine ⟨?_, ?_, ?_⟩
    · intro e2 ht ha2
      rcases ha2 with ha2 | ha2 <;> simp [step, hne, ha2, ht, hl]
    · intro e2 ht ha2
      simp [step, hne, ha2, ht, hl]
    · intro e2 ht ha2
      have h2 : step p s1 e2 = stepPassFail p s1 e2 d := by
        rcases ha2 with ha2 | ha2 <;> simp [step, hne, ha2, ht, hl]
      rw [h2, stepPassFail_eq p s1 e2 d root ho]
  have hex : ∃ s1, stepPassFail p (stateAfter p input) e d = StepResult.next s1 ∧
      s1.spans = (stateAfter p input).spans ∧ s1.outerSpan = some root :=
    ⟨_, stepPassFail_eq p _ e d root hroot, rfl, hroot⟩
  obtain ⟨s1, h1, h2, h3⟩ := hex
  have hl : lookup s1.spans e.Test = some d := by rw [h2]; exact hd
  rw [hstep, h1]
  refine ⟨s1, root, rfl, h2, hl, h3, (key s1 hl h3).1, (key s1 hl h3).2.1,
    (key s1 hl h3).2.2, ?_⟩
  · intro e3 ht ha3
    have hd3 : lookup (stateAfter p input).spans e3.Test = some d := by rw [ht]; exact hd
    have : step p (stateAfter p input) e3 = StepResult.next
        { stateAfter p input with
          calls := (stateAfter p input).calls ++ [Call.End d.Span none]
          spans := delete (stateAfter p input).spans e3.Test } := by
      simp [step, hne, ha3, ht, hd]
    rw [this]
    simp [StepResult.state, lookup_delete, ht]

/-- C14 on a `fail A` event in the state after `run A@100`: the record `⟨1, 100⟩` of A
stays in the registry. -/
theorem C14_pass_fail_keeps_record_witness :
    lookup (stateAfter amd64 [mkEvent 100 "run" "A" ⟨false, 0, 0⟩]).spans "A" = some ⟨1, 100⟩ ∧
    ∃ s1, step amd64 (stateAfter amd64 [mkEvent 100 "run" "A" ⟨false, 0, 0⟩])
        ⟨300, "fail", "pkg", "A", ⟨false, 1, 0⟩, ""⟩ = StepResult.next s1 ∧
      lookup s1.spans "A" = some ⟨1, 100⟩ := by
  refine ⟨by decide, ?_⟩
  obtain ⟨s1, root, h1, _, h3, _⟩ :=
    C14_pass_fail_keeps_record amd64 [mkEvent 100 "run" "A" ⟨false, 0, 0⟩]
      ⟨300, "fail", "pkg", "A", ⟨false, 1, 0⟩, ""⟩ ⟨1, 100⟩ (by decide) (Or.inr rfl)
  exact ⟨s1, h1, h3⟩

/-! ### C15 -/

/-- C15: in the state in which the loop leaves off on any input, with the registry
holding the record `d` for the test of the event `e`: for a `pause` or `cont` event the
iteration goes on after the single call `AddEvent` on `d.Span` with the action name as
message and the timestamp of `e`, and for an `output` event after the single call
`AddEvent` on `d.Span` with the output text as message and the timestamp of `e`; in both
cases nothing but the call log changes. -/
theorem C15_annotates_span (p : Platform) (input : List (Except String TestEvent))
    (e : TestEvent) (d : spanDetails)
    (hd : lookup (stateAfter p input).spans e.Test = some d) :
    (e.Action = "pause" ∨ e.Action = "cont" →
      step p (stateAfter p input) e = StepResult.next
        { stateAfter p input with
          calls := (stateAfter p input).calls ++ [Call.AddEvent d.Span e.Action e.Time] }) ∧
    (e.Action = "output" →
      step p (stateAfter p input) e = StepResult.next
        { stateAfter p input with
          calls := (stateAfter p input).calls ++ [Call.AddEvent d.Span e.Output e.Time] }) := by
  have hne : e.Test ≠ "" := (inv_stateAfter p input).spans_ne e.Test d (lookup_mem hd)
  constructor
  · intro ha
    rcases ha with ha | ha <;> simp [step, hne, ha, hd]
  · intro ha
    simp [step, hne, ha, hd]

/-- C15 on an `output` event of A in the state after `run A@100`. -/
theorem C15_annotates_span_witness :
    lookup (stateAfter amd64 [mkEvent 100 "run" "A" ⟨false, 0, 0⟩]).spans "A" = some ⟨1, 100⟩ ∧
    step amd64 (stateAfter amd64 [mkEvent 100 "run" "A" ⟨false, 0, 0⟩])
        ⟨200, "output", "pkg", "A", ⟨false, 0, 0⟩, "foo"⟩ =
      StepResult.next
        { stateAfter amd64 [mkEvent 100 "run" "A" ⟨false, 0, 0⟩] with
          calls := (stateAfter amd64 [mkEvent 100 "run" "A" ⟨false, 0, 0⟩]).calls ++
            [Call.AddEvent 1 "foo" 200] } :=
  ⟨by decide,
   (C15_annotates_span amd64 [mkEvent 100 "run" "A" ⟨false, 0, 0⟩]
    ⟨200, "output", "pkg", "A", ⟨false, 0, 0⟩, "foo"⟩ ⟨1, 100⟩ (by decide)).2 rfl⟩

/-! ### C16 -/

/-- The `run` branch when an outer span exists, in closed form. -/
theorem stepRun_eq (p : Platform) (s : State) (e : TestEvent) (root : Nat) (hs : Inv s)
    (ho : s.outerSpan = some root) :
    stepRun p s e =
      { s with
        nextSpan := s.nextSpan + 1
        calls := s.calls ++ [Call.Start s.nextSpan (some root) e.Test e.Time (childAttrs p e)]
        spans := insert s.spans e.Test ⟨s.nextSpan, e.Time⟩ } := by
  have hctx : s.ctx = some root := by rw [hs.ctx_eq, ho]
  simp [stepRun, ensureOuter, ho, hctx]

/-- The duplicate-run stream evaluated, with the times and the elapsed value abstract. -/
theorem duplicateRun_eq (p : Platform) (T0 T1 T2 : Int) (el : Float64) :
    Main p none (duplicateRun T0 T1 T2 el) =
      ([Call.Start 0 none "test2json" T0 [],
        Call.SetStatus 0 Code.Ok,
        Call.Start 1 (some 0) "A" T0
          [("code.namespace", "pkg"), ("code.function", "A"), ("host.arch", p.GOARCH),
           ("os.name", p.GOOS)],
        Call.Start 2 (some 0) "A" T1
          [("code.namespace", "pkg"), ("code.function", "A"), ("host.arch", p.GOARCH),
           ("os.name", p.GOOS)],
        Call.SetStatus 2 Code.Ok,
        Call.End 2 (some (T1 + toDuration p el)),
        Call.End 0 (some (max 0 (T1 + toDuration p el))),
        Call.Shutdown], Outcome.ok) := by
  by_cases h : 0 < T1 + toDuration p el
  · simp [Main, duplicateRun, mkEvent, loop, step, stepRun, ensureOuter, init, insert, delete,
      lookup, stepPassFail, childAttrs, runDefers, runDeferred, h, max_eq_right (le_of_lt h)]
  · simp [Main, duplicateRun, mkEvent, loop, step, stepRun, ensureOuter, init, insert, delete,
      lookup, stepPassFail, childAttrs, runDefers, runDeferred, h, max_eq_left (not_lt.mp h)]

/-- C16: (1) in the state in which the loop leaves off on any input, with the registry
holding the record `d` for the test of a `run` event `e`, the iteration goes on after the
single call that starts a new span below the outer span, with a handle other than
`d.Span`, and the registry then holds for the test the record of the new span with the
timestamp of `e`, and no second record; no call is made on `d.Span`.
(2) For the stream `run A@T0`, `run A@T1`, `pass A elapsed=e`: after the second `run` the
registry is the single record of span 2 with start `T1`; two child spans named A are
started; the `pass` sets the status of span 2 and ends it at `T1 + e`; span 1 receives no
`End` call. -/
theorem C16_duplicate_run_replaces (p : Platform) (input : List (Except String TestEvent))
    (e : TestEvent) (d : spanDetails)
    (hd : lookup (stateAfter p input).spans e.Test = some d) (ha : e.Action = "run") :
    (∃ root, (stateAfter p input).outerSpan = some root ∧
      step p (stateAfter p input) e = StepResult.next
        { stateAfter p input with
          nextSpan := (stateAfter p input).nextSpan + 1
          calls := (stateAfter p input).calls ++
            [Call.Start (stateAfter p input).nextSpan (some root) e.Test e.Time (childAttrs p e)]
          spans := insert (stateAfter p input).spans e.Test
            ⟨(stateAfter p input).nextSpan, e.Time⟩ } ∧
      d.Span ≠ (stateAfter p input).nextSpan ∧
      lookup (insert (stateAfter p input).spans e.Test ⟨(stateAfter p input).nextSpan, e.Time⟩)
        e.Test = some ⟨(stateAfter p input).nextSpan, e.Time⟩ ∧
      recordsOf e.Test
        (insert (stateAfter p input).spans e.Test ⟨(stateAfter p input).nextSpan, e.Time⟩) = 1) ∧
    (∀ (T0 T1 T2 : Int) (el : Float64),
      (stateAfter p [mkEvent T0 "run" "A" ⟨false, 0, 0⟩,
        mkEvent T1 "run" "A" ⟨false, 0, 0⟩]).spans = [("A", ⟨2, T1⟩)] ∧
      Main p none (duplicateRun T0 T1 T2 el) =
        ([Call.Start 0 none "test2json" T0 [],
          Call.SetStatus 0 Code.Ok,
          Call.Start 1 (some 0) "A" T0
            [("code.namespace", "pkg"), ("code.function", "A"), ("host.arch", p.GOARCH),
             ("os.name", p.GOOS)],
          Call.Start 2 (some 0) "A" T1
            [("code.namespace", "pkg"), ("code.function", "A"), ("host.arch", p.GOARCH),
             ("os.name", p.GOOS)],
          Call.SetStatus 2 Code.Ok,
          Call.End 2 (some (T1 + toDuration p el)),
          Call.End 0 (some (max 0 (T1 + toDuration p el))),
          Call.Shutdown], Outcome.ok) ∧
      childStartsNamed "A" (Main p none (duplicateRun T0 T1 T2 el)).1 = 2 ∧
      endCalls 1 (Main p none (duplicateRun T0 T1 T2 el)).1 = [] ∧
      endCalls 2 (Main p none (duplicateRun T0 T1 T2 el)).1 = [some (T1 + toDuration p el)]) := by
  have hinv := inv_stateAfter p input
  have hne : e.Test ≠ "" := hinv.spans_ne e.Test d (lookup_mem hd)
  obtain ⟨root, hroot, _⟩ := hinv.spans_gt e.Test d (lookup_mem hd)
  have hlt := hinv.spans_lt e.Test d (lookup_mem hd)
  constructor
  · refine ⟨root, hroot, ?_, by omega, ?_, ?_⟩
    · have : step p (stateAfter p input) e = StepResult.next (stepRun p (stateAfter p input) e) := by
        simp [step, hne, ha]
      rw [this, stepRun_eq p _ e root hinv hroot]
    · simp [lookup_insert]
    · simp [recordsOf_insert]
  · intro T0 T1 T2 el
    refine ⟨?_, duplicateRun_eq p T0 T1 T2 el, ?_, ?_, ?_⟩
    · simp [stateAfter, mkEvent, loop, step, stepRun, ensureOuter, init, insert, delete]
    · rw [duplicateRun_eq]
      simp [childStartsNamed, childStarts]
    · rw [duplicateRun_eq]
      simp [endCalls]
    · rw [duplicateRun_eq]
      simp [endCalls]

/-- C16 on a second `run A@200` in the state after `run A@100`: the new record of A is
that of span 2. -/
theorem C16_duplicate_run_replaces_witness :
    lookup (stateAfter amd64 [mkEvent 100 "run" "A" ⟨false, 0, 0⟩]).spans "A" = some ⟨1, 100⟩ ∧
    (∀ (T0 T1 T2 : Int) (el : Float64),
      endCalls 1 (Main amd64 none (duplicateRun T0 T1 T2 el)).1 = []) :=
  ⟨by decide, fun T0 T1 T2 el =>
    ((C16_duplicate_run_replaces amd64 [mkEvent 100 "run" "A" ⟨false, 0, 0⟩]
      ⟨200, "run", "pkg", "A", ⟨false, 0, 0⟩, ""⟩ ⟨1, 100⟩ (by decide) rfl).2
        T0 T1 T2 el).2.2.2.1⟩

/-! ### C17 -/

theorem passFailEnds_nil (p : Platform) :
    ∀ (evs : List TestEvent) (s : State), (∀ e ∈ evs, isPassFail e = false) →
      passFailEnds p s (evs.map Except.ok) = [] := by
  intro evs
  induction evs with
  | nil => intro s _; rfl
  | cons e rest ih =>
    intro s hall
    have he : isPassFail e = false := hall e (by simp)
    simp only [List.map_cons, passFailEnds]
    cases step p s e with
    | next s1 =>
      simp only [he, Bool.false_eq_true, if_false, List.nil_append]
      exact ih s1 (fun x hx => hall x (by simp [hx]))
    | panicked s1 => rfl

/-- A list holding a `run` of a named test has a first one. -/
theorem first_named_run (evs : List TestEvent) (h : ∃ e ∈ evs, isNamedRun e = true) :
    ∃ pre e rest, evs = pre ++ e :: rest ∧ (∀ x ∈ pre, isNamedRun x = false) ∧
      isNamedRun e = true := by
  induction evs with
  | nil =>
    obtain ⟨e, he, _⟩ := h
    simp at he
  | cons x rest ih =>
    by_cases hx : isNamedRun x = true
    · exact ⟨[], x, rest, rfl, by simp, hx⟩
    · have hx' : isNamedRun x = false := by simpa using hx
      obtain ⟨e, he, hr⟩ := h
      have hin : e ∈ rest := by
        rcases List.mem_cons.mp he with h1 | h1
        · subst h1
          rw [hr] at hx'
          cases hx'
        · exact h1
      obtain ⟨pre, e1, rest1, h1, h2, h3⟩ := ih ⟨e, hin, hr⟩
      refine ⟨x :: pre, e1, rest1, by simp [h1], ?_, h3⟩
      intro y hy
      rcases List.mem_cons.mp hy with h4 | h4
      · subst h4; exact hx'
      · exact h2 y h4

/-- C17: for a stream of events processed to its end that holds a `run` event of a named
test and no `pass` or `fail` event of a named test, the running maximum is still the
zero time when the loop ends, and the outer span, started at the timestamp `ts` of the
first such `run` event, is ended exactly once, with the zero time; when `ts` is after the
zero time this end timestamp differs from the start time of the outer span and lies
before it. -/
theorem C17_unset_root_end (p : Platform) (evs : List TestEvent)
    (hok : (runEvents p evs).2 = Outcome.ok)
    (hrun : ∃ e ∈ evs, isNamedRun e = true)
    (hnone : ∀ e ∈ evs, isPassFail e = false) :
    (runEvents p evs).1.lastEndTime = 0 ∧
    ∃ ts tail,
      (Main p none (evs.map Except.ok)).1 =
        Call.Start 0 none "test2json" ts [] :: Call.SetStatus 0 Code.Ok :: tail ∧
      rootSpans (Main p none (evs.map Except.ok)).1 = [0] ∧
      endCalls 0 (Main p none (evs.map Except.ok)).1 = [some 0] ∧
      (0 < ts → ∀ te, some te ∈ endCalls 0 (Main p none (evs.map Except.ok)).1 →
        te ≠ ts ∧ te < ts) := by
  have hlast : (runEvents p evs).1.lastEndTime = 0 := by
    have h := loop_lastEndTime p (evs.map Except.ok) init inv_init
    rw [passFailEnds_nil p evs init hnone] at h
    exact h
  refine ⟨hlast, ?_⟩
  obtain ⟨pre, e, rest, hsplit, hpre, he⟩ := first_named_run evs hrun
  have hin : (evs.map Except.ok : List (Except String TestEvent)) =
      pre.map Except.ok ++ Except.ok e :: rest.map Except.ok := by
    rw [hsplit]
    simp
  have hpreok : (runEvents p pre).2 = Outcome.ok := by
    rcases loop_events_outcome p pre init with h | h
    · exact h
    · have h1 := loop_append_panicked p pre init (Except.ok e :: rest.map Except.ok) h
      have h2 : (runEvents p evs).2 = Outcome.panicked := by
        unfold runEvents
        rw [hin, h1]
        exact h
      rw [h2] at hok
      cases hok
  obtain ⟨_, tail, hmain, htail⟩ :=
    first_run_calls p (evs.map Except.ok) pre e (rest.map Except.ok) hin hpre he hpreok
  have hroots : rootSpans (Main p none (evs.map Except.ok)).1 = [0] := by
    rw [hmain]
    simp [rootSpans] at htail ⊢
    exact htail
  have hend : endCalls 0 (Main p none (evs.map Except.ok)).1 = [some 0] := by
    have h := endCalls_Main p (evs.map Except.ok) 0 (by rw [hroots]; simp)
    rw [h]
    have : (loop p init (evs.map Except.ok)).1.lastEndTime = 0 := hlast
    rw [this]
  refine ⟨e.Time, _, hmain, hroots, hend, ?_⟩
  intro hts te hte
  rw [hend] at hte
  simp only [List.mem_singleton, Option.some.injEq] at hte
  subst hte
  exact ⟨by omega, hts⟩

/-- C17 on Scenario 3 at 2021-01-01T00:00:00Z: the outer span is ended with the zero
time. -/
theorem C17_unset_root_end_witness :
    (runEvents amd64 runSkipEvents).2 = Outcome.ok ∧
    (∃ e ∈ runSkipEvents, isNamedRun e = true) ∧
    (∀ e ∈ runSkipEvents, isPassFail e = false) ∧
    (runEvents amd64 runSkipEvents).1.lastEndTime = 0 :=
  ⟨by decide, by decide, by decide,
   (C17_unset_root_end amd64 runSkipEvents (by decide) (by decide) (by decide)).1⟩

end Test2Otlp
